import Mathlib

/-!
Verification of the Carbon toolchain lexer (`lexer/tokenized_buffer.cpp`).

The development is a shallow embedding of `TokenizedBuffer::Lex` and the
`TokenizedBuffer::Lexer` helper class.  Source text is a `List Char`;
machine integers are `Nat` (all quantities involved are small and
non-negative, except the line `indent` field which we keep as `Int` so
that statements about its initial value can be made).  The
`DiagnosticEmitter` is modelled as an accumulating list of diagnostics.
All loops are implemented with explicit fuel so that every definition is
executable by the kernel; adequacy of the fuel is proved separately.
-/

namespace CarbonLex

/-- Modelled from the spec: the token-kind tag set.  The concrete symbol
and keyword kinds come from `lexer/token_registry.def`, which is not part
of the visible source; the spec (§3, §6) treats the registry as a fixed,
externally supplied table of (tag, spelling) pairs where each symbol tag
declares whether it opens/closes a group and its partner tag.  We model a
representative registry containing the three bracket pairs, the `->` /
`-` pair the spec uses as its longest-match example, a few other symbols,
and two keywords.  The four structural kinds `Identifier`,
`IntegerLiteral`, `DocComment` and `Error` are exactly as in the source. -/
inductive TokenKind where
  | OpenParen
  | CloseParen
  | OpenSquare
  | CloseSquare
  | OpenCurly
  | CloseCurly
  | Arrow
  | Minus
  | Equal
  | Semi
  | KwFn
  | KwVar
  | Identifier
  | IntegerLiteral
  | DocComment
  | Error
deriving DecidableEq, Repr

/-- `TokenKind::GetFixedSpelling`: the fixed spelling of symbol and
keyword kinds; empty for the four structural kinds. -/
def TokenKind.fixedSpelling : TokenKind → List Char
  | .OpenParen => ['(']
  | .CloseParen => [')']
  | .OpenSquare => ['[']
  | .CloseSquare => [']']
  | .OpenCurly => ['{']
  | .CloseCurly => ['}']
  | .Arrow => ['-', '>']
  | .Minus => ['-']
  | .Equal => ['=']
  | .Semi => [';']
  | .KwFn => ['f', 'n']
  | .KwVar => ['v', 'a', 'r']
  | _ => []

/-- `TokenKind::IsOpeningSymbol`. -/
def TokenKind.isOpeningSymbol : TokenKind → Bool
  | .OpenParen | .OpenSquare | .OpenCurly => true
  | _ => false

/-- `TokenKind::IsClosingSymbol`. -/
def TokenKind.isClosingSymbol : TokenKind → Bool
  | .CloseParen | .CloseSquare | .CloseCurly => true
  | _ => false

/-- `TokenKind::GetClosingSymbol`: the partner of an opening symbol
(junk value `Error` on non-opening kinds, which the source never
queries). -/
def TokenKind.closingSymbol : TokenKind → TokenKind
  | .OpenParen => .CloseParen
  | .OpenSquare => .CloseSquare
  | .OpenCurly => .CloseCurly
  | _ => .Error

/-- Modelled from the spec: the symbol registry rows of
`token_registry.def` in declaration order.  `LexSymbolToken` matches with
`StringSwitch::StartsWith`, taking the first row whose spelling is a
prefix of the remaining text, so multi-character spellings are listed
before their single-character prefixes (the spec's longest-match rule,
§4.2). -/
def symbolKinds : List TokenKind :=
  [.Arrow, .OpenParen, .CloseParen, .OpenSquare, .CloseSquare,
   .OpenCurly, .CloseCurly, .Minus, .Equal, .Semi]

/-- Modelled from the spec: the keyword registry rows of
`token_registry.def`.  The spec names no concrete keywords; any exact
table works for the claims, which only rely on `foo`/`bar` not being
keywords. -/
def keywordKinds : List TokenKind := [.KwFn, .KwVar]

/-- `llvm::isDigit`. -/
def isDigit (c : Char) : Bool := 48 ≤ c.toNat && c.toNat ≤ 57

/-- `llvm::isAlpha`. -/
def isAlpha (c : Char) : Bool :=
  (65 ≤ c.toNat && c.toNat ≤ 90) || (97 ≤ c.toNat && c.toNat ≤ 122)

/-- `llvm::isAlnum`. -/
def isAlnum (c : Char) : Bool := isAlpha c || isDigit c

/-- The "alphanumeric or underscore" character class used by
`TakeLeadingIntegerLiteral` and `LexKeywordOrIdentifier`. -/
def isIdChar (c : Char) : Bool := isAlnum c || c == '_'

/-- `TakeLeadingIntegerLiteral`: on a leading decimal digit, greedily
take the maximal run of alphanumeric-or-underscore characters; otherwise
the empty string. -/
def takeLeadingIntegerLiteral : List Char → List Char
  | [] => []
  | c :: rest => if isDigit c then (c :: rest).takeWhile isIdChar else []

/-- `LineInfo` (from the tokenized-buffer data model): start offset,
byte length, and indent column.  The constructor and `SkipWhitespace`
always create lines with `AddLine({start, 0, 0})`, so every field except
`start` begins at zero. -/
structure LineInfo where
  start : Nat
  length : Nat
  indent : Int
deriving DecidableEq, Repr

/-- `TokenInfo`: kind, owning line, column, and the kind-dependent
payload fields.  Cross-links are `Option Nat` (the C++ default-invalid
`Token` is `none`). -/
structure TokenInfo where
  kind : TokenKind
  token_line : Nat
  column : Nat
  error_length : Nat := 0
  id : Nat := 0
  literal_index : Nat := 0
  closing_token : Option Nat := none
  opening_token : Option Nat := none
  is_recovery : Bool := false
deriving DecidableEq, Repr

/-- The diagnostic kinds the lexer can emit through its
`DiagnosticEmitter` (the `struct`s at the top of the file). -/
inductive Diag where
  | UnmatchedClosing
  | MismatchedClosing
  | EmptyDigitSequence
  | InvalidDigit (digit : Char) (radix : Nat)
  | InvalidDigitSeparator
  | IrregularDigitSeparators (radix : Nat)
  | UnknownBaseSpecifier
deriving DecidableEq, Repr

/-- `TokenizedBuffer`: the append-only token store. -/
structure TokenizedBuffer where
  source : List Char
  line_infos : List LineInfo
  token_infos : List TokenInfo
  identifier_map : List (List Char × Nat)
  identifier_infos : List (List Char)
  int_literals : List Nat
  has_errors : Bool
deriving DecidableEq, Repr

/-- The transient `TokenizedBuffer::Lexer` state plus the modelled
diagnostic emitter.  `spans` is a ghost field recording, for each token
in creation order, the source characters that were consumed while lexing
it (empty for synthetic recovery tokens); it influences nothing and is
used only to state specifications about "the text a token was lexed
from". -/
structure LexState where
  buffer : TokenizedBuffer
  current_line : Nat
  current_column : Nat
  set_indent : Bool
  open_groups : List Nat
  diags : List Diag
  spans : List (List Char)
deriving DecidableEq, Repr

/-- Default token used for out-of-range reads (never hit on the indices
the theorems quantify over). -/
def dTok : TokenInfo := { kind := .Error, token_line := 0, column := 0 }

/-- Default line used for out-of-range reads. -/
def dLine : LineInfo := { start := 0, length := 0, indent := 0 }

def getTok (st : LexState) (i : Nat) : TokenInfo :=
  st.buffer.token_infos.getD i dTok

def getLine (st : LexState) (i : Nat) : LineInfo :=
  st.buffer.line_infos.getD i dLine

/-- In-place update of one list element (`GetTokenInfo(...)` mutation). -/
def listModify {α : Type} (f : α → α) : Nat → List α → List α
  | _, [] => []
  | 0, a :: as => f a :: as
  | n + 1, a :: as => a :: listModify f n as

def modifyTok (st : LexState) (i : Nat) (f : TokenInfo → TokenInfo) : LexState :=
  { st with buffer.token_infos := listModify f i st.buffer.token_infos }

def modifyLine (st : LexState) (i : Nat) (f : LineInfo → LineInfo) : LexState :=
  { st with buffer.line_infos := listModify f i st.buffer.line_infos }

/-- `TokenizedBuffer::AddLine`: append a line record, returning its
index. -/
def addLine (st : LexState) (info : LineInfo) : LexState × Nat :=
  ({ st with buffer.line_infos := st.buffer.line_infos ++ [info] },
   st.buffer.line_infos.length)

/-- `TokenizedBuffer::AddToken`: append a token record, returning its
index.  The extra `consumed` argument feeds the ghost `spans` field. -/
def addToken (st : LexState) (info : TokenInfo) (consumed : List Char) :
    LexState × Nat :=
  ({ st with
      buffer.token_infos := st.buffer.token_infos ++ [info],
      spans := st.spans ++ [consumed] },
   st.buffer.token_infos.length)

/-- `emitter.EmitError<D>`: append a diagnostic. -/
def emit (st : LexState) (d : Diag) : LexState :=
  { st with diags := st.diags ++ [d] }

/-- `buffer.has_errors = true`. -/
def setErr (st : LexState) : LexState :=
  { st with buffer.has_errors := true }

/-- The common `if (!set_indent) { current_line_info->indent = col;
set_indent = true; }` step. -/
def setIndentTo (st : LexState) (col : Nat) : LexState :=
  if st.set_indent then st
  else
    { modifyLine st st.current_line (fun li => { li with indent := (col : Int) })
      with set_indent := true }

/-- Sets the current line's `length` to the current column (done at each
newline and at end of input). -/
def setLineLength (st : LexState) : LexState :=
  modifyLine st st.current_line (fun li => { li with length := st.current_column })

/-- The `'\n'` case of `SkipWhitespace` once the input is known to
continue: add the next line record and reset column and indent flag. -/
def startNewLine (st : LexState) : LexState :=
  let li := getLine st st.current_line
  let p := addLine st { start := li.start + st.current_column + 1, length := 0, indent := 0 }
  { p.1 with current_line := p.2, current_column := 0, set_indent := false }

/-- The `///` case of `SkipWhitespace`: set the line's indent, set the
indent flag, and append a `DocComment` token at the current column. -/
def addDocCommentToken (st : LexState) (commentText : List Char) : LexState :=
  let st := modifyLine st st.current_line
    (fun li => { li with indent := (st.current_column : Int) })
  let st := { st with set_indent := true }
  (addToken st
    { kind := .DocComment, token_line := st.current_line, column := st.current_column }
    commentText).1

/-- Counts and skips the characters before the next `'\n'` (the
comment-consuming inner loop of `SkipWhitespace`). -/
def skipLineRest (n : Nat) : List Char → Nat × List Char
  | [] => (n, [])
  | c :: rest => if c == '\n' then (n, c :: rest) else skipLineRest (n + 1) rest

/-- `source_text.startswith("//")`. -/
def isSlashSlash : List Char → Bool
  | x :: y :: _ => x == '/' && y == '/'
  | _ => false

/-- `source_text.startswith("///")`. -/
def isTripleSlash : List Char → Bool
  | x :: y :: z :: _ => x == '/' && y == '/' && z == '/'
  | _ => false

/-- `TokenizedBuffer::Lexer::SkipWhitespace`, with explicit fuel (the
C++ `while` loop; any fuel above the text length is enough).  Returns
the C++ boolean result together with the updated state and remaining
text. -/
def skipWhitespaceF : Nat → LexState → List Char → Bool × LexState × List Char
  | 0, st, text => (false, st, text)
  | fuel + 1, st, text =>
    match text with
    | [] => (false, setLineLength st, [])
    | c :: rest =>
      if isSlashSlash (c :: rest) && !st.set_indent then
        -- A comment: possibly lex a `DocComment` token, then consume to
        -- end of line, counting columns.
        let commentText := (c :: rest).takeWhile (fun ch => ch != '\n')
        let st1 := if isTripleSlash (c :: rest) then addDocCommentToken st commentText else st
        let p := skipLineRest 0 (c :: rest)
        skipWhitespaceF fuel { st1 with current_column := st1.current_column + p.1 } p.2
      else if c == '\n' then
        let st1 := setLineLength st
        if rest.isEmpty then (false, st1, [])
        else skipWhitespaceF fuel (startNewLine st1) rest
      else if c == ' ' || c == '\t' then
        skipWhitespaceF fuel { st with current_column := st.current_column + 1 } rest
      else (true, st, text)

/-- One iteration step of `CloseInvalidOpenGroups`' `while` loop, driven
by fuel (the stack length bounds the iteration count). -/
def closeGroupsLoop (kind : TokenKind) : Nat → LexState → LexState
  | 0, st => st
  | fuel + 1, st =>
    match st.open_groups with
    | [] => st
    | opening :: restG =>
      let opening_kind := (getTok st opening).kind
      if kind = opening_kind.closingSymbol then st
      else
        let st := { st with open_groups := restG }
        let st := setErr st
        let st := emit st .MismatchedClosing
        let p := addToken st
          { kind := opening_kind.closingSymbol, token_line := st.current_line,
            column := st.current_column, is_recovery := true } []
        let st := p.1
        let closing := p.2
        let st := modifyTok st opening (fun ti => { ti with closing_token := some closing })
        let st := modifyTok st closing (fun ti => { ti with opening_token := some opening })
        closeGroupsLoop kind fuel st

/-- `TokenizedBuffer::Lexer::CloseInvalidOpenGroups`: closes all open
groups that cannot remain open across the symbol `kind` (`Error` closes
everything). -/
def closeInvalidOpenGroups (st : LexState) (kind : TokenKind) : LexState :=
  if ¬ kind.isClosingSymbol ∧ kind ≠ .Error then st
  else closeGroupsLoop kind st.open_groups.length st

/-- The `StringSwitch` of `LexSymbolToken`: the first registry row whose
spelling is a prefix of the text. -/
def symbolMatch (text : List Char) : Option TokenKind :=
  symbolKinds.find? (fun k => k.fixedSpelling.isPrefixOf text)

/-- `TokenizedBuffer::Lexer::LexSymbolToken`.  `none` models the C++
`false` return (no input consumed). -/
def lexSymbolToken (st : LexState) (text : List Char) :
    Option (LexState × List Char) :=
  match symbolMatch text with
  | none => none
  | some kind =>
    let st := setIndentTo st st.current_column
    let st := closeInvalidOpenGroups st kind
    let spelling := kind.fixedSpelling
    let p := addToken st
      { kind := kind, token_line := st.current_line, column := st.current_column }
      spelling
    let st := p.1
    let token := p.2
    let st := { st with current_column := st.current_column + spelling.length }
    let text := text.drop spelling.length
    if kind.isOpeningSymbol then
      some ({ st with open_groups := token :: st.open_groups }, text)
    else if ¬ kind.isClosingSymbol then some (st, text)
    else
      match st.open_groups with
      | [] =>
        let st := modifyTok st token
          (fun ti => { ti with kind := .Error, error_length := spelling.length })
        let st := setErr st
        let st := emit st .UnmatchedClosing
        some (st, text)
      | opening :: restG =>
        let st := { st with open_groups := restG }
        let st := modifyTok st opening (fun ti => { ti with closing_token := some token })
        let st := modifyTok st token (fun ti => { ti with opening_token := some opening })
        some (st, text)

/-- `TokenizedBuffer::Lexer::GetOrCreateIdentifier`. -/
def getOrCreateIdentifier (st : LexState) (text : List Char) : LexState × Nat :=
  match st.buffer.identifier_map.find? (fun p => p.1 == text) with
  | some p => (st, p.2)
  | none =>
    let h := st.buffer.identifier_infos.length
    ({ st with
        buffer.identifier_map := st.buffer.identifier_map ++ [(text, h)],
        buffer.identifier_infos := st.buffer.identifier_infos ++ [text] }, h)

/-- The keyword `StringSwitch` of `LexKeywordOrIdentifier` (exact
match). -/
def keywordMatch (text : List Char) : Option TokenKind :=
  keywordKinds.find? (fun k => k.fixedSpelling == text)

/-- `TokenizedBuffer::Lexer::LexKeywordOrIdentifier`. -/
def lexKeywordOrIdentifier (st : LexState) (text : List Char) :
    Option (LexState × List Char) :=
  match text with
  | [] => none
  | c :: _ =>
    if !(isAlpha c || c == '_') then none
    else
      let st := setIndentTo st st.current_column
      let identifier_text := text.takeWhile isIdChar
      let identifier_column := st.current_column
      let st := { st with current_column := st.current_column + identifier_text.length }
      let text' := text.drop identifier_text.length
      match keywordMatch identifier_text with
      | some kind =>
        some ((addToken st
          { kind := kind, token_line := st.current_line, column := identifier_column }
          identifier_text).1, text')
      | none =>
        let q := getOrCreateIdentifier st identifier_text
        some ((addToken q.1
          { kind := .Identifier, token_line := q.1.current_line,
            column := identifier_column, id := q.2 }
          identifier_text).1, text')

/-- The digit alphabet of `CheckDigitSequence` (note: only uppercase hex
digits are valid). -/
def validDigit (radix : Nat) (c : Char) : Bool :=
  if radix = 2 then c == '0' || c == '1'
  else if radix = 10 then isDigit c
  else isDigit c || (65 ≤ c.toNat && c.toNat ≤ 70)

/-- The scanning loop of `CheckDigitSequence`: returns (ok, number of
digit separators seen, diagnostics in discovery order, whether
`has_errors` was set).  `prev` is the previous character (`none` at the
start). -/
def digitScanLoop (radix : Nat) : Option Char → List Char → Bool × Nat × List Diag × Bool
  | _, [] => (true, 0, [], false)
  | prev, c :: rest =>
    if validDigit radix c then digitScanLoop radix (some c) rest
    else if c == '_' then
      let bad : Bool := prev == none || prev == some '_' || rest.isEmpty
      let r := digitScanLoop radix (some c) rest
      (r.1, r.2.1 + 1,
       (if bad then [Diag.InvalidDigitSeparator] else []) ++ r.2.2.1,
       bad || r.2.2.2)
    else (false, 0, [Diag.InvalidDigit c radix], false)

/-- `TokenizedBuffer::Lexer::CheckDigitSeparatorPlacement`: returns
whether the `IrregularDigitSeparators` diagnostic fires.  Reading from
the least-significant end, every `stride`-th character must be `_`, and
there must be no other separators (`remaining_digit_separators != 0`
reduces to `seps ≠ L / stride` since the visited positions are distinct
separators). -/
def checkDigitSeparatorPlacement (text : List Char) (radix : Nat) (seps : Nat) : Bool :=
  let stride := if radix = 10 then 4 else 5
  let L := text.length
  let k := L / stride
  if (List.range k).all (fun j => text.getD (L - (j + 1) * stride) ' ' == '_') then
    seps != k
  else true

/-- The `ok` / `has_digit_separators` result of `CheckDigitSequence`. -/
structure CheckDigitSequenceResult where
  ok : Bool
  has_digit_separators : Bool := false
deriving DecidableEq, Repr

/-- `TokenizedBuffer::Lexer::CheckDigitSequence`: validates the digit
text, returning the result, the diagnostics emitted, and whether
`buffer.has_errors` was set. -/
def checkDigitSequence (text : List Char) (radix : Nat) :
    CheckDigitSequenceResult × List Diag × Bool :=
  if text.isEmpty then ({ ok := false }, [Diag.EmptyDigitSequence], false)
  else
    let r := digitScanLoop radix none text
    if !r.1 then ({ ok := false }, r.2.2.1, r.2.2.2)
    else if r.2.1 != 0 && radix != 2 && checkDigitSeparatorPlacement text radix r.2.1 then
      ({ ok := true, has_digit_separators := r.2.1 != 0 },
       r.2.2.1 ++ [Diag.IrregularDigitSeparators radix], true)
    else ({ ok := true, has_digit_separators := r.2.1 != 0 }, r.2.2.1, r.2.2.2)

/-- The numeric value of a digit character (`getAsInteger` on the
already validated digit text). -/
def digitVal (c : Char) : Nat := if isDigit c then c.toNat - 48 else c.toNat - 55

/-- Radix interpretation of a separator-free digit string. -/
def parseIntRadix (digits : List Char) (radix : Nat) : Nat :=
  digits.foldl (fun a c => a * radix + digitVal c) 0

/-- `TokenizedBuffer::Lexer::LexIntegerLiteral`. -/
def lexIntegerLiteral (st : LexState) (text : List Char) :
    Option (LexState × List Char) :=
  let int_text := takeLeadingIntegerLiteral text
  if int_text.isEmpty then none
  else
    let int_column := st.current_column
    let st := { st with current_column := st.current_column + int_text.length }
    let text' := text.drop int_text.length
    let st := setIndentTo st int_column
    let addErrorToken := fun (st : LexState) =>
      (setErr (addToken st
        { kind := .Error, token_line := st.current_line, column := int_column,
          error_length := int_text.length } int_text).1, text')
    -- Radix determination.
    if 2 ≤ int_text.length ∧ int_text.getD 0 ' ' = '0' ∧ int_text.getD 1 ' ' ≠ 'x'
        ∧ int_text.getD 1 ' ' ≠ 'b' then
      some (addErrorToken (emit st .UnknownBaseSpecifier))
    else
      let radix : Nat :=
        if 2 ≤ int_text.length ∧ int_text.getD 0 ' ' = '0' then
          if int_text.getD 1 ' ' = 'x' then 16 else 2
        else 10
      let digits :=
        if 2 ≤ int_text.length ∧ int_text.getD 0 ' ' = '0' then int_text.drop 2
        else int_text
      let r := checkDigitSequence digits radix
      let st := { st with diags := st.diags ++ r.2.1 }
      let st := if r.2.2 then setErr st else st
      if !r.1.ok then some (addErrorToken st)
      else
        let cleaned :=
          if r.1.has_digit_separators then digits.filter (fun c => c != '_') else digits
        let value := parseIntRadix cleaned radix
        let st := (addToken st
          { kind := .IntegerLiteral, token_line := st.current_line, column := int_column,
            literal_index := st.buffer.int_literals.length } int_text).1
        let st := { st with buffer.int_literals := st.buffer.int_literals ++ [value] }
        some (st, text')

/-- The character class of `LexError`'s `take_while`: characters that
are not alphanumeric, not `_`, `\t` or `\n`, and such that no registry
spelling is a prefix of the one-character string. -/
def errScanChar (c : Char) : Bool :=
  !(isAlnum c) && c != '_' && c != '\t' && c != '\n' &&
  !(symbolKinds.any (fun k => k.fixedSpelling.isPrefixOf [c]))

/-- `TokenizedBuffer::Lexer::LexError`.  The "Unrecognized characters"
message goes to `llvm::errs()`, not to the `DiagnosticEmitter`, so it is
not added to `diags`. -/
def lexError (st : LexState) (text : List Char) : LexState × List Char :=
  let error_text := text.takeWhile errScanChar
  let error_text := if error_text.isEmpty then text.take 1 else error_text
  let error_text := error_text.take (2 ^ 31 - 1)
  let st := (addToken st
    { kind := .Error, token_line := st.current_line, column := st.current_column,
      error_length := error_text.length } error_text).1
  let st := { st with current_column := st.current_column + error_text.length }
  (setErr st, text.drop error_text.length)

/-- The strategy dispatch of the body of `TokenizedBuffer::Lex`'s
`while` loop: symbol, keyword-or-identifier, integer literal, fallback
error scan. -/
def lexOneToken (st : LexState) (text : List Char) : LexState × List Char :=
  match lexSymbolToken st text with
  | some r => r
  | none =>
    match lexKeywordOrIdentifier st text with
    | some r => r
    | none =>
      match lexIntegerLiteral st text with
      | some r => r
      | none => lexError st text

/-- The `while (lexer.SkipWhitespace(...))` drive loop of
`TokenizedBuffer::Lex`, with fuel. -/
def lexLoopF : Nat → LexState → List Char → LexState
  | 0, st, _ => st
  | fuel + 1, st, text =>
    let w := skipWhitespaceF (text.length + 1) st text
    if w.1 then
      let p := lexOneToken w.2.1 w.2.2
      lexLoopF fuel p.1 p.2
    else w.2.1

/-- The state at entry to `TokenizedBuffer::Lex`: an empty buffer whose
line table holds the single record `{0, 0, 0}` added by the `Lexer`
constructor. -/
def initState (source : List Char) : LexState :=
  { buffer :=
      { source := source,
        line_infos := [{ start := 0, length := 0, indent := 0 }],
        token_infos := [], identifier_map := [], identifier_infos := [],
        int_literals := [], has_errors := false },
    current_line := 0, current_column := 0, set_indent := false,
    open_groups := [], diags := [], spans := [] }

/-- `TokenizedBuffer::Lex`: drive the loop to completion, then
force-close the remaining open groups with the `Error` sentinel. -/
def Lex (source : List Char) : LexState :=
  closeInvalidOpenGroups (lexLoopF (source.length + 1) (initState source) source) .Error

/-- `TokenizedBuffer::GetTokenText`. -/
def GetTokenText (st : LexState) (token : Nat) : List Char :=
  let token_info := getTok st token
  let fixed_spelling := token_info.kind.fixedSpelling
  if !fixed_spelling.isEmpty then fixed_spelling
  else
    let line_info := getLine st token_info.token_line
    let token_start := line_info.start + token_info.column
    if token_info.kind = .Error then
      (st.buffer.source.drop token_start).take token_info.error_length
    else if token_info.kind = .DocComment then
      (st.buffer.source.take (line_info.start + line_info.length)).drop token_start
    else if token_info.kind = .IntegerLiteral then
      takeLeadingIntegerLiteral (st.buffer.source.drop token_start)
    else
      st.buffer.identifier_infos.getD token_info.id []

/-- `TokenizedBuffer::GetKind`. -/
def GetKind (st : LexState) (token : Nat) : TokenKind := (getTok st token).kind

/-- The kind sequence of the finished buffer. -/
def kindsOf (st : LexState) : List TokenKind := st.buffer.token_infos.map (·.kind)

/-- `TokenizedBuffer::GetIdentifier` (the handle payload). -/
def GetIdentifier (st : LexState) (token : Nat) : Nat := (getTok st token).id

/-- `TokenizedBuffer::GetIntegerLiteral` (the stored value). -/
def GetIntegerLiteral (st : LexState) (token : Nat) : Nat :=
  st.buffer.int_literals.getD (getTok st token).literal_index 0

/-- `TokenizedBuffer::GetIndentColumnNumber` (1-based). -/
def GetIndentColumnNumber (st : LexState) (line : Nat) : Int :=
  (getLine st line).indent + 1

/-- `TokenizedBuffer::IsRecoveryToken`. -/
def IsRecoveryToken (st : LexState) (token : Nat) : Bool :=
  (getTok st token).is_recovery

/-- `TokenizedBuffer::GetMatchedClosingToken` (payload read). -/
def GetMatchedClosingToken (st : LexState) (token : Nat) : Option Nat :=
  (getTok st token).closing_token

/-- `TokenizedBuffer::GetMatchedOpeningToken` (payload read). -/
def GetMatchedOpeningToken (st : LexState) (token : Nat) : Option Nat :=
  (getTok st token).opening_token

/-! ### Specification-level definitions -/

/-- The byte offset of the scan position: start of the current line plus
the current column.  The lexer's column bookkeeping keeps this equal to
the number of consumed source characters. -/
def curOffset (st : LexState) : Nat :=
  (getLine st st.current_line).start + st.current_column

/-- The byte offset at which token `i` starts (line start + column),
exactly the `token_start` computation of `GetTokenText`. -/
def tokStart (st : LexState) (i : Nat) : Nat :=
  (getLine st (getTok st i).token_line).start + (getTok st i).column

/-- The end offset of line `ℓ`: for finished lines this is start +
length; for the line still being lexed the length field is not final and
the current column marks the end so far. -/
def lineEnd (st : LexState) (ℓ : Nat) : Nat :=
  if ℓ = st.current_line then (getLine st ℓ).start + st.current_column
  else (getLine st ℓ).start + (getLine st ℓ).length

/-- Token `i` (an opening bracket) is cross-linked to a matching closing
token. -/
def LinkedOpen (st : LexState) (i : Nat) : Prop :=
  ∃ j, j < st.buffer.token_infos.length ∧
    (getTok st i).closing_token = some j ∧
    (getTok st j).opening_token = some i ∧
    (getTok st j).kind = (getTok st i).kind.closingSymbol

/-- Token `i` (a closing bracket) is cross-linked to a matching opening
token. -/
def LinkedClose (st : LexState) (i : Nat) : Prop :=
  ∃ j, j < st.buffer.token_infos.length ∧
    (getTok st i).opening_token = some j ∧
    (getTok st j).closing_token = some i ∧
    (getTok st j).kind.isOpeningSymbol = true ∧
    (getTok st i).kind = (getTok st j).kind.closingSymbol

/-- The ghost span of token `i` agrees with what the finished buffer can
reconstruct about it: interned identifier text, the re-derived integer
literal span, the recorded error span, and the doc-comment line slice. -/
def spanOK (st : LexState) (i : Nat) : Prop :=
  ((getTok st i).kind = .Identifier →
     (getTok st i).id < st.buffer.identifier_infos.length ∧
     st.buffer.identifier_infos.getD (getTok st i).id [] = st.spans.getD i [] ∧
     ∃ k, (k, (getTok st i).id) ∈ st.buffer.identifier_map) ∧
  ((getTok st i).kind = .IntegerLiteral →
     takeLeadingIntegerLiteral (st.buffer.source.drop (tokStart st i)) =
       st.spans.getD i []) ∧
  ((getTok st i).kind = .Error →
     (st.buffer.source.drop (tokStart st i)).take (getTok st i).error_length =
       st.spans.getD i []) ∧
  ((getTok st i).kind = .DocComment →
     (st.buffer.source.take (lineEnd st (getTok st i).token_line)).drop (tokStart st i) =
       st.spans.getD i [])

/-- Core state invariant of one lexing run, relating the lexer state to
the remaining unconsumed text. -/
structure InvCore (st : LexState) (text : List Char) : Prop where
  lines_ne : st.buffer.line_infos ≠ []
  cur_line : st.current_line + 1 = st.buffer.line_infos.length
  offset_text : st.buffer.source.drop (curOffset st) = text
  offset_len : curOffset st + text.length = st.buffer.source.length
  tok_line_lt : ∀ i < st.buffer.token_infos.length,
      (getTok st i).token_line < st.buffer.line_infos.length
  spans_len : st.spans.length = st.buffer.token_infos.length
  spans_ok : ∀ i < st.buffer.token_infos.length, spanOK st i
  map_ok : ∀ p ∈ st.buffer.identifier_map,
      p.2 < st.buffer.identifier_infos.length ∧
      st.buffer.identifier_infos.getD p.2 [] = p.1
  map_inj : ∀ p ∈ st.buffer.identifier_map, ∀ q ∈ st.buffer.identifier_map,
      p.1 = q.1 → p.2 = q.2
  groups_nodup : st.open_groups.Nodup
  groups_ok : ∀ g ∈ st.open_groups, g < st.buffer.token_infos.length ∧
      (getTok st g).kind.isOpeningSymbol = true ∧ (getTok st g).closing_token = none
  open_linked : ∀ i < st.buffer.token_infos.length,
      (getTok st i).kind.isOpeningSymbol = true → i ∉ st.open_groups → LinkedOpen st i
  close_linked : ∀ i < st.buffer.token_infos.length,
      (getTok st i).kind.isClosingSymbol = true → LinkedClose st i
  doc_not_cur : ∀ i < st.buffer.token_infos.length, (getTok st i).kind = .DocComment →
      (getTok st i).token_line ≠ st.current_line ∨ text = [] ∨ text.headD ' ' = '\n'

/-- The current line's indent field is still its initial 0 while the
indent flag is unset. -/
def IndentUnset (st : LexState) : Prop :=
  st.set_indent = false → (getLine st st.current_line).indent = 0

/-- Every line's indent field is either its initial 0 or the column of
one of that line's tokens. -/
def IndentOK (st : LexState) : Prop :=
  ∀ ℓ < st.buffer.line_infos.length,
    (getLine st ℓ).indent = 0 ∨
    ∃ i, i < st.buffer.token_infos.length ∧ (getTok st i).token_line = ℓ ∧
      ((getTok st i).column : Int) = (getLine st ℓ).indent

/-- Weakening of `IndentOK` that also allows the current line's indent
to have just been set to the current column, with the witnessing token
not yet appended (the state in the middle of one lexing strategy, after
its `set_indent` step and before its `AddToken`). -/
def IndentAlmost (st : LexState) : Prop :=
  ∀ ℓ < st.buffer.line_infos.length,
    (getLine st ℓ).indent = 0 ∨
    (∃ i, i < st.buffer.token_infos.length ∧ (getTok st i).token_line = ℓ ∧
      ((getTok st i).column : Int) = (getLine st ℓ).indent) ∨
    (ℓ = st.current_line ∧ (getLine st ℓ).indent = (st.current_column : Int))

/-- Full invariant: the core plus the indent-column facts. -/
def Inv (st : LexState) (text : List Char) : Prop :=
  InvCore st text ∧ IndentUnset st ∧ IndentOK st

/-- The head of the text is a character `SkipWhitespace` stops in front
of (the shape of the text whenever `SkipWhitespace` returns true). -/
def NonWsHead (text : List Char) : Prop :=
  ∃ c t, text = c :: t ∧ c ≠ '\n' ∧ c ≠ ' ' ∧ c ≠ '\t'

/-- Number of newline characters that are followed by at least one
further character (each of these, and only these, spawns a new line
record). -/
def nlFollowed : List Char → Nat
  | [] => 0
  | [_] => 0
  | c :: d :: rest => (if c = '\n' then 1 else 0) + nlFollowed (d :: rest)

/-- The reconstruction procedure of the round-trip property: each
token's `GetTokenText` in token order, with a single space inserted
wherever the source had any separator between two consecutive tokens
(detected as a gap between the previous token's end offset and the next
token's start offset). -/
def reconstruct (st : LexState) : List Char :=
  (List.range st.buffer.token_infos.length).foldl
    (fun acc i =>
      if i = 0 then GetTokenText st i
      else if tokStart st i = tokStart st (i - 1) + (GetTokenText st (i - 1)).length
        then acc ++ GetTokenText st i
        else acc ++ [' '] ++ GetTokenText st i) []

/-- The round-trip property for one input: re-lexing the reconstructed
text yields the same kind sequence. -/
def roundTripOK (s : List Char) : Prop :=
  kindsOf (Lex (reconstruct (Lex s))) = kindsOf (Lex s)

/-! ### General lemmas about the list helpers -/

theorem listModify_length {α : Type} (f : α → α) :
    ∀ (i : Nat) (l : List α), (listModify f i l).length = l.length
  | _, [] => by simp [listModify]
  | 0, _ :: _ => rfl
  | n + 1, _ :: as => by simp [listModify, listModify_length f n as]

theorem getD_listModify_self {α : Type} (f : α → α) (d : α) :
    ∀ (i : Nat) (l : List α), i < l.length →
      (listModify f i l).getD i d = f (l.getD i d)
  | 0, _ :: _, _ => rfl
  | n + 1, _ :: as, h => by
    simpa [listModify] using getD_listModify_self f d n as (Nat.lt_of_succ_lt_succ h)

theorem getD_listModify_ne {α : Type} (f : α → α) (d : α) :
    ∀ (i j : Nat) (l : List α), i ≠ j →
      (listModify f i l).getD j d = l.getD j d
  | _, _, [], _ => by simp [listModify]
  | 0, 0, _ :: _, h => absurd rfl h
  | 0, _ + 1, _ :: _, _ => rfl
  | _ + 1, 0, _ :: _, _ => rfl
  | i + 1, j + 1, _ :: as, h => by
    simpa [listModify] using getD_listModify_ne f d i j as (fun hh => h (by omega))

theorem getD_append_last {α : Type} (l : List α) (a d : α) :
    (l ++ [a]).getD l.length d = a := by
  rw [List.getD_append_right _ _ _ _ (Nat.le_refl _), Nat.sub_self]; rfl

theorem take_of_isPrefixOf {α : Type} [DecidableEq α] {p t : List α}
    (h : p.isPrefixOf t = true) : t.take p.length = p :=
  (List.prefix_iff_eq_take.mp (List.isPrefixOf_iff_prefix.mp h)).symm

theorem length_le_of_isPrefixOf {α : Type} [DecidableEq α] {p t : List α}
    (h : p.isPrefixOf t = true) : p.length ≤ t.length :=
  (List.isPrefixOf_iff_prefix.mp h).length_le

theorem takeWhile_length_le (p : α → Bool) (l : List α) :
    (l.takeWhile p).length ≤ l.length :=
  (List.takeWhile_prefix p).length_le

theorem takeLeadingIntegerLiteral_length_le (text : List Char) :
    (takeLeadingIntegerLiteral text).length ≤ text.length := by
  match text with
  | [] => simp [takeLeadingIntegerLiteral]
  | c :: rest =>
    simp only [takeLeadingIntegerLiteral]
    split
    · exact takeWhile_length_le _ _
    · simp

theorem take_takeWhile_self (p : Char → Bool) (l : List Char) :
    l.take ((l.takeWhile p).length) = l.takeWhile p :=
  (List.prefix_iff_eq_take.mp (List.takeWhile_prefix p)).symm

theorem not_mem_takeWhile_of_pred {p : Char → Bool} {x : Char} (hp : p x = false)
    (l : List Char) : x ∉ l.takeWhile p := by
  intro hmem
  have := List.mem_takeWhile_imp hmem
  rw [hp] at this
  cases this

theorem take_prefix_trans {l p : List Char} (hp : p <+: l) (n : Nat) :
    l.take ((p.take n).length) = p.take n :=
  (List.prefix_iff_eq_take.mp ((List.take_prefix n p).trans hp)).symm

theorem takeLeadingIntegerLiteral_take (text : List Char) :
    text.take (takeLeadingIntegerLiteral text).length = takeLeadingIntegerLiteral text := by
  match text with
  | [] => simp [takeLeadingIntegerLiteral]
  | c :: rest =>
    simp only [takeLeadingIntegerLiteral]
    split
    · exact take_takeWhile_self isIdChar (c :: rest)
    · simp

theorem no_nl_takeLeadingIntegerLiteral (text : List Char) :
    '\n' ∉ takeLeadingIntegerLiteral text := by
  match text with
  | [] => simp [takeLeadingIntegerLiteral]
  | c :: rest =>
    simp only [takeLeadingIntegerLiteral]
    split
    · exact not_mem_takeWhile_of_pred (by decide) (c :: rest)
    · simp

/-! ### Monotonicity of the per-token invariants -/

theorem tokStart_congr {st st' : LexState} {i : Nat}
    (htok : getTok st' i = getTok st i)
    (hline : (getLine st' (getTok st i).token_line).start =
      (getLine st (getTok st i).token_line).start) :
    tokStart st' i = tokStart st i := by
  unfold tokStart
  rw [htok, hline]

theorem spanOK_mono {st st' : LexState} {i : Nat}
    (hsrc : st'.buffer.source = st.buffer.source)
    (htok : getTok st' i = getTok st i)
    (hspan : st'.spans.getD i [] = st.spans.getD i [])
    (hline : (getLine st' (getTok st i).token_line).start =
      (getLine st (getTok st i).token_line).start)
    (hend : (getTok st i).kind = .DocComment →
      lineEnd st' (getTok st i).token_line = lineEnd st (getTok st i).token_line)
    (hids_len : st.buffer.identifier_infos.length ≤ st'.buffer.identifier_infos.length)
    (hids : ∀ h < st.buffer.identifier_infos.length,
        st'.buffer.identifier_infos.getD h [] = st.buffer.identifier_infos.getD h [])
    (hmap : ∀ p ∈ st.buffer.identifier_map, p ∈ st'.buffer.identifier_map)
    (h : spanOK st i) : spanOK st' i := by
  obtain ⟨h1, h2, h3, h4⟩ := h
  have hts : tokStart st' i = tokStart st i := tokStart_congr htok hline
  refine ⟨?_, ?_, ?_, ?_⟩
  · intro hk
    rw [htok] at hk
    obtain ⟨ha, hb, k, hk2⟩ := h1 hk
    rw [htok, hspan]
    exact ⟨lt_of_lt_of_le ha hids_len, by rw [hids _ ha, hb], k, hmap _ hk2⟩
  · intro hk
    rw [htok] at hk
    rw [hspan, hsrc, hts]
    exact h2 hk
  · intro hk
    rw [htok] at hk
    rw [htok, hspan, hsrc, hts]
    exact h3 hk
  · intro hk
    rw [htok] at hk
    rw [htok, hspan, hsrc, hts, hend hk]
    exact h4 hk

theorem LinkedOpen_mono {st st' : LexState} {i : Nat}
    (hn : st.buffer.token_infos.length ≤ st'.buffer.token_infos.length)
    (htok : ∀ j < st.buffer.token_infos.length, getTok st' j = getTok st j)
    (hi : i < st.buffer.token_infos.length)
    (h : LinkedOpen st i) : LinkedOpen st' i := by
  obtain ⟨j, hj, h1, h2, h3⟩ := h
  exact ⟨j, lt_of_lt_of_le hj hn,
    by rw [htok i hi]; exact h1,
    by rw [htok j hj]; exact h2,
    by rw [htok i hi, htok j hj]; exact h3⟩

theorem LinkedClose_mono {st st' : LexState} {i : Nat}
    (hn : st.buffer.token_infos.length ≤ st'.buffer.token_infos.length)
    (htok : ∀ j < st.buffer.token_infos.length, getTok st' j = getTok st j)
    (hi : i < st.buffer.token_infos.length)
    (h : LinkedClose st i) : LinkedClose st' i := by
  obtain ⟨j, hj, h1, h2, h3, h4⟩ := h
  exact ⟨j, lt_of_lt_of_le hj hn,
    by rw [htok i hi]; exact h1,
    by rw [htok j hj]; exact h2,
    by rw [htok j hj]; exact h3,
    by rw [htok i hi, htok j hj]; exact h4⟩

theorem doc_ne_cur_of_nws {st : LexState} {text : List Char}
    (core : InvCore st text) (hnws : NonWsHead text) :
    ∀ i < st.buffer.token_infos.length, (getTok st i).kind = .DocComment →
      (getTok st i).token_line ≠ st.current_line := by
  intro i hi hk
  obtain ⟨c, t, hct, hc1, -, -⟩ := hnws
  rcases core.doc_not_cur i hi hk with h | h | h
  · exact h
  · rw [hct] at h; cases h
  · rw [hct] at h
    simp only [List.headD_cons] at h
    exact absurd h hc1

theorem lineEnd_congr {st st' : LexState} {ℓ : Nat}
    (hlines : st'.buffer.line_infos = st.buffer.line_infos)
    (hcl : st'.current_line = st.current_line)
    (hne : ℓ ≠ st.current_line) :
    lineEnd st' ℓ = lineEnd st ℓ := by
  unfold lineEnd getLine
  rw [hlines, hcl, if_neg hne, if_neg hne]

/-- Extending the buffer by one non-bracket, non-doc-comment token on
the current line, advancing the column over the characters the token
consumed, preserves the core invariant.  The identifier-table fields are
taken as explicit hypotheses so the lemma also covers the interning
update of `LexKeywordOrIdentifier`. -/
theorem invcore_extend
    {st : LexState} {text : List Char} (core : InvCore st text)
    (info : TokenInfo) (sp : List Char) (d : Nat) (st' : LexState)
    (hsrc : st'.buffer.source = st.buffer.source)
    (hlines : st'.buffer.line_infos = st.buffer.line_infos)
    (htoks : st'.buffer.token_infos = st.buffer.token_infos ++ [info])
    (hspans : st'.spans = st.spans ++ [sp])
    (hbracket : st'.open_groups = st.open_groups ∧ info.kind.isOpeningSymbol = false ∨
      st'.open_groups = st.buffer.token_infos.length :: st.open_groups ∧
        info.kind.isOpeningSymbol = true ∧ info.closing_token = none)
    (hcl : st'.current_line = st.current_line)
    (hcc : st'.current_column = st.current_column + d)
    (hmap_mono : ∀ p ∈ st.buffer.identifier_map, p ∈ st'.buffer.identifier_map)
    (hmap_ok : ∀ p ∈ st'.buffer.identifier_map,
        p.2 < st'.buffer.identifier_infos.length ∧
        st'.buffer.identifier_infos.getD p.2 [] = p.1)
    (hmap_inj : ∀ p ∈ st'.buffer.identifier_map, ∀ q ∈ st'.buffer.identifier_map,
        p.1 = q.1 → p.2 = q.2)
    (hids_len : st.buffer.identifier_infos.length ≤ st'.buffer.identifier_infos.length)
    (hids : ∀ h < st.buffer.identifier_infos.length,
        st'.buffer.identifier_infos.getD h [] = st.buffer.identifier_infos.getD h [])
    (hd : d ≤ text.length)
    (hnws : NonWsHead text)
    (hinfo_line : info.token_line = st.current_line)
    (hinfo_close : info.kind.isClosingSymbol = false)
    (hinfo_doc : info.kind = .DocComment →
      text.drop d = [] ∨ (text.drop d).headD ' ' = '\n')
    (hsp : spanOK st' st.buffer.token_infos.length) :
    InvCore st' (text.drop d) := by
  have hn : st.buffer.token_infos.length ≤ st'.buffer.token_infos.length := by
    rw [htoks]; simp
  have htok_old : ∀ j < st.buffer.token_infos.length, getTok st' j = getTok st j := by
    intro j hj
    unfold getTok
    rw [htoks, List.getD_append _ _ _ _ hj]
  have htok_new : getTok st' st.buffer.token_infos.length = info := by
    unfold getTok
    rw [htoks, getD_append_last]
  have hgetline : ∀ ℓ, getLine st' ℓ = getLine st ℓ := by
    intro ℓ
    unfold getLine
    rw [hlines]
  have hoff : curOffset st' = curOffset st + d := by
    unfold curOffset
    rw [hgetline, hcl, hcc]
    omega
  have hdoc_ne := doc_ne_cur_of_nws core hnws
  refine ⟨?_, ?_, ?_, ?_, ?_, ?_, ?_, hmap_ok, hmap_inj, ?_, ?_, ?_, ?_, ?_⟩
  · rw [hlines]; exact core.lines_ne
  · rw [hlines, hcl]; exact core.cur_line
  · rw [hsrc, hoff, ← List.drop_drop, core.offset_text]
  · rw [hsrc, hoff, List.length_drop]
    have := core.offset_len
    omega
  · intro i hi
    rw [htoks, List.length_append, List.length_singleton] at hi
    rw [hlines]
    rcases Nat.lt_succ_iff_lt_or_eq.mp hi with hlt | heq
    · rw [htok_old i hlt]; exact core.tok_line_lt i hlt
    · rw [heq, htok_new, hinfo_line]
      have := core.cur_line
      omega
  · rw [hspans, htoks]
    simp [core.spans_len]
  · intro i hi
    rw [htoks, List.length_append, List.length_singleton] at hi
    rcases Nat.lt_succ_iff_lt_or_eq.mp hi with hlt | heq
    · refine spanOK_mono hsrc (htok_old i hlt) ?_ ?_ ?_ hids_len hids hmap_mono
        (core.spans_ok i hlt)
      · rw [hspans, List.getD_append _ _ _ _ (by rw [core.spans_len]; exact hlt)]
      · rw [hgetline]
      · intro hkdoc
        exact lineEnd_congr hlines hcl (hdoc_ne i hlt hkdoc)
    · rw [heq]; exact hsp
  · rcases hbracket with ⟨hg, -⟩ | ⟨hg, -, -⟩
    · rw [hg]; exact core.groups_nodup
    · rw [hg]
      exact List.nodup_cons.mpr
        ⟨fun hmem => lt_irrefl _ (core.groups_ok _ hmem).1, core.groups_nodup⟩
  · intro g hg'
    rcases hbracket with ⟨hg, -⟩ | ⟨hg, hinfo_open, hinfo_ct⟩
    · rw [hg] at hg'
      obtain ⟨h1, h2, h3⟩ := core.groups_ok g hg'
      exact ⟨lt_of_lt_of_le h1 hn, by rw [htok_old g h1]; exact h2,
        by rw [htok_old g h1]; exact h3⟩
    · rw [hg] at hg'
      rcases List.mem_cons.mp hg' with heq | hmem
      · subst heq
        refine ⟨?_, by rw [htok_new]; exact hinfo_open, by rw [htok_new]; exact hinfo_ct⟩
        rw [htoks]; simp
      · obtain ⟨h1, h2, h3⟩ := core.groups_ok g hmem
        exact ⟨lt_of_lt_of_le h1 hn, by rw [htok_old g h1]; exact h2,
          by rw [htok_old g h1]; exact h3⟩
  · intro i hi hop hmem
    rw [htoks, List.length_append, List.length_singleton] at hi
    rcases hbracket with ⟨hg, hinfo_open⟩ | ⟨hg, -, -⟩
    · rcases Nat.lt_succ_iff_lt_or_eq.mp hi with hlt | heq
      · rw [htok_old i hlt] at hop
        rw [hg] at hmem
        exact LinkedOpen_mono hn htok_old hlt (core.open_linked i hlt hop hmem)
      · rw [heq, htok_new] at hop
        rw [hop] at hinfo_open
        cases hinfo_open
    · rw [hg, List.mem_cons, not_or] at hmem
      rcases Nat.lt_succ_iff_lt_or_eq.mp hi with hlt | heq
      · rw [htok_old i hlt] at hop
        exact LinkedOpen_mono hn htok_old hlt (core.open_linked i hlt hop hmem.2)
      · exact absurd heq hmem.1
  · intro i hi hcl'
    rw [htoks, List.length_append, List.length_singleton] at hi
    rcases Nat.lt_succ_iff_lt_or_eq.mp hi with hlt | heq
    · rw [htok_old i hlt] at hcl'
      exact LinkedClose_mono hn htok_old hlt (core.close_linked i hlt hcl')
    · rw [heq, htok_new] at hcl'
      rw [hcl'] at hinfo_close
      cases hinfo_close
  · intro i hi hkdoc
    rw [htoks, List.length_append, List.length_singleton] at hi
    rcases Nat.lt_succ_iff_lt_or_eq.mp hi with hlt | heq
    · rw [htok_old i hlt] at hkdoc ⊢
      rw [hcl]
      exact Or.inl (hdoc_ne i hlt hkdoc)
    · rw [heq, htok_new] at hkdoc
      exact Or.inr (hinfo_doc hkdoc)

theorem listModify_ge {α : Type} (f : α → α) :
    ∀ (i : Nat) (l : List α), l.length ≤ i → listModify f i l = l
  | _, [], _ => by simp [listModify]
  | 0, a :: as, h => by simp at h
  | i + 1, a :: as, h => by
    simp only [listModify]
    rw [listModify_ge f i as (by simpa using h)]

theorem setIndentTo_frame (st : LexState) (col : Nat) :
    (setIndentTo st col).buffer.source = st.buffer.source ∧
    (setIndentTo st col).buffer.token_infos = st.buffer.token_infos ∧
    (setIndentTo st col).buffer.identifier_map = st.buffer.identifier_map ∧
    (setIndentTo st col).buffer.identifier_infos = st.buffer.identifier_infos ∧
    (setIndentTo st col).buffer.int_literals = st.buffer.int_literals ∧
    (setIndentTo st col).buffer.has_errors = st.buffer.has_errors ∧
    (setIndentTo st col).diags = st.diags ∧
    (setIndentTo st col).spans = st.spans ∧
    (setIndentTo st col).open_groups = st.open_groups ∧
    (setIndentTo st col).current_line = st.current_line ∧
    (setIndentTo st col).current_column = st.current_column ∧
    (setIndentTo st col).buffer.line_infos.length = st.buffer.line_infos.length ∧
    (∀ ℓ, (getLine (setIndentTo st col) ℓ).start = (getLine st ℓ).start ∧
          (getLine (setIndentTo st col) ℓ).length = (getLine st ℓ).length) := by
  unfold setIndentTo
  split
  · simp
  · refine ⟨rfl, rfl, rfl, rfl, rfl, rfl, rfl, rfl, rfl, rfl, rfl, ?_, ?_⟩
    · simp [modifyLine, listModify_length]
    · intro ℓ
      simp only [getLine, modifyLine]
      by_cases hlt : st.current_line < st.buffer.line_infos.length
      · by_cases hl : st.current_line = ℓ
        · subst hl
          rw [getD_listModify_self _ _ _ _ hlt]
          exact ⟨rfl, rfl⟩
        · rw [getD_listModify_ne _ _ _ _ _ hl]
          exact ⟨rfl, rfl⟩
      · rw [listModify_ge _ _ _ (by omega)]
        exact ⟨rfl, rfl⟩

theorem setIndentTo_lineEnd (st : LexState) (col : Nat) (ℓ : Nat) :
    lineEnd (setIndentTo st col) ℓ = lineEnd st ℓ := by
  obtain ⟨-, -, -, -, -, -, -, -, -, hcl, hcc, -, hsl⟩ := setIndentTo_frame st col
  unfold lineEnd
  rw [hcl, hcc, (hsl ℓ).1, (hsl ℓ).2]

theorem setIndentTo_invcore {st : LexState} {text : List Char} (core : InvCore st text)
    (col : Nat) : InvCore (setIndentTo st col) text := by
  obtain ⟨hsrc, htoks, hmap, hinfos, hlits, herr, hdiags, hspans, hgroups, hcl, hcc,
    hlen, hsl⟩ := setIndentTo_frame st col
  have hgt : ∀ i, getTok (setIndentTo st col) i = getTok st i := by
    intro i; unfold getTok; rw [htoks]
  have hoff : curOffset (setIndentTo st col) = curOffset st := by
    unfold curOffset; rw [hcl, hcc, (hsl _).1]
  have h0 : 0 < st.buffer.line_infos.length := List.length_pos.mpr core.lines_ne
  refine ⟨?_, ?_, ?_, ?_, ?_, ?_, ?_, ?_, ?_, ?_, ?_, ?_, ?_, ?_⟩
  · rw [← List.length_pos]; omega
  · rw [hcl, hlen]; exact core.cur_line
  · rw [hsrc, hoff]; exact core.offset_text
  · rw [hsrc, hoff]; exact core.offset_len
  · intro i hi
    rw [htoks] at hi
    rw [hgt, hlen]
    exact core.tok_line_lt i hi
  · rw [hspans, htoks]; exact core.spans_len
  · intro i hi
    rw [htoks] at hi
    refine spanOK_mono hsrc (hgt i) ?_ ?_ ?_ ?_ ?_ ?_ (core.spans_ok i hi)
    · rw [hspans]
    · rw [(hsl _).1]
    · intro _; rw [setIndentTo_lineEnd]
    · rw [hinfos]
    · intro h _; rw [hinfos]
    · intro p hp; rw [hmap]; exact hp
  · intro p hp; rw [hmap] at hp; rw [hinfos]; exact core.map_ok p hp
  · intro p hp q hq; rw [hmap] at hp hq; exact core.map_inj p hp q hq
  · rw [hgroups]; exact core.groups_nodup
  · intro g hg
    rw [hgroups] at hg
    obtain ⟨h1, h2, h3⟩ := core.groups_ok g hg
    rw [htoks, hgt]
    exact ⟨h1, h2, h3⟩
  · intro i hi hop hmem
    rw [htoks] at hi
    rw [hgt] at hop
    rw [hgroups] at hmem
    exact LinkedOpen_mono (by rw [htoks]) (fun j _ => hgt j) hi
      (core.open_linked i hi hop hmem)
  · intro i hi hc
    rw [htoks] at hi
    rw [hgt] at hc
    exact LinkedClose_mono (by rw [htoks]) (fun j _ => hgt j) hi
      (core.close_linked i hi hc)
  · intro i hi hk
    rw [htoks] at hi
    rw [hgt] at hk ⊢
    rw [hcl]
    exact core.doc_not_cur i hi hk

theorem setIndentTo_indentUnset (st : LexState) (col : Nat) :
    IndentUnset (setIndentTo st col) := by
  intro hflag
  unfold setIndentTo at hflag ⊢
  split at hflag
  · rename_i hs
    rw [hflag] at hs
    cases hs
  · cases hflag

theorem setIndentTo_indentAlmost {st : LexState} (hio : IndentOK st) :
    IndentAlmost (setIndentTo st st.current_column) := by
  unfold setIndentTo
  split
  · intro ℓ hl
    rcases hio ℓ hl with h | h
    · exact Or.inl h
    · exact Or.inr (Or.inl h)
  · intro ℓ hl
    simp only [modifyLine, getLine, listModify_length] at hl ⊢
    by_cases hcur : st.current_line = ℓ
    · subst hcur
      refine Or.inr (Or.inr ⟨rfl, ?_⟩)
      rw [getD_listModify_self _ _ _ _ hl]
    · rw [getD_listModify_ne _ _ _ _ _ hcur]
      rcases hio ℓ hl with h | ⟨i, hi, h1, h2⟩
      · exact Or.inl h
      · exact Or.inr (Or.inl ⟨i, hi, h1, h2⟩)

/-- Full-invariant version of `invcore_extend` for the four
token-producing strategies other than symbols: the state after appending
one token (of a non-bracket, non-doc kind) at the current column,
advancing the column over the consumed span `sp`, with arbitrary
diagnostic / error-flag / literal-table updates and an identifier-table
update constrained by the usual table hypotheses. -/
theorem inv_token_op
    (st : LexState) (text : List Char)
    (core : InvCore st text) (hiu : IndentUnset st) (hia : IndentAlmost st)
    (hnws : NonWsHead text)
    (kind : TokenKind) (idv litv elv : Nat) (sp : List Char)
    (diags' : List Diag) (he' : Bool) (lits' : List Nat)
    (map' : List (List Char × Nat)) (infos' : List (List Char))
    (groups' : List Nat)
    (hbracket : groups' = st.open_groups ∧ kind.isOpeningSymbol = false ∨
      groups' = st.buffer.token_infos.length :: st.open_groups ∧
        kind.isOpeningSymbol = true)
    (hkind_close : kind.isClosingSymbol = false)
    (hkind_doc : kind ≠ .DocComment)
    (hle : sp.length ≤ text.length)
    (hmap_mono : ∀ p ∈ st.buffer.identifier_map, p ∈ map')
    (hmap_ok : ∀ p ∈ map', p.2 < infos'.length ∧ infos'.getD p.2 [] = p.1)
    (hmap_inj : ∀ p ∈ map', ∀ q ∈ map', p.1 = q.1 → p.2 = q.2)
    (hids_len : st.buffer.identifier_infos.length ≤ infos'.length)
    (hids : ∀ h < st.buffer.identifier_infos.length,
        infos'.getD h [] = st.buffer.identifier_infos.getD h [])
    (hkI : kind = .Identifier → idv < infos'.length ∧ infos'.getD idv [] = sp ∧
        ∃ key, (key, idv) ∈ map')
    (hkN : kind = .IntegerLiteral → takeLeadingIntegerLiteral text = sp)
    (hkE : kind = .Error → text.take elv = sp) :
    Inv { st with
        buffer.token_infos := st.buffer.token_infos ++
          [{ kind := kind, token_line := st.current_line, column := st.current_column,
             error_length := elv, id := idv, literal_index := litv }],
        buffer.identifier_map := map',
        buffer.identifier_infos := infos',
        buffer.int_literals := lits',
        buffer.has_errors := he',
        diags := diags',
        current_column := st.current_column + sp.length,
        open_groups := groups',
        spans := st.spans ++ [sp] }
      (text.drop sp.length) := by
  set info : TokenInfo :=
    { kind := kind, token_line := st.current_line, column := st.current_column,
      error_length := elv, id := idv, literal_index := litv } with hinfo
  set st' : LexState :=
    { st with
        buffer.token_infos := st.buffer.token_infos ++ [info],
        buffer.identifier_map := map',
        buffer.identifier_infos := infos',
        buffer.int_literals := lits',
        buffer.has_errors := he',
        diags := diags',
        current_column := st.current_column + sp.length,
        open_groups := groups',
        spans := st.spans ++ [sp] } with hst'
  have htok_new : getTok st' st.buffer.token_infos.length = info := by
    unfold getTok
    rw [hst']
    exact getD_append_last _ _ _
  have htok_old : ∀ j < st.buffer.token_infos.length, getTok st' j = getTok st j := by
    intro j hj
    unfold getTok
    rw [hst']
    exact List.getD_append _ _ _ _ hj
  have hspan_new : st'.spans.getD st.buffer.token_infos.length [] = sp := by
    rw [hst']
    show (st.spans ++ [sp]).getD st.buffer.token_infos.length [] = sp
    rw [← core.spans_len]
    exact getD_append_last _ _ _
  have hsp : spanOK st' st.buffer.token_infos.length := by
    refine ⟨?_, ?_, ?_, ?_⟩
    · intro hk
      rw [htok_new] at hk ⊢
      obtain ⟨h1, h2, key, h3⟩ := hkI hk
      rw [hspan_new]
      exact ⟨h1, h2, key, h3⟩
    · intro hk
      rw [htok_new] at hk
      have hts : tokStart st' st.buffer.token_infos.length = curOffset st := by
        unfold tokStart curOffset
        rw [htok_new, hinfo]
        rfl
      rw [hspan_new, hts]
      show takeLeadingIntegerLiteral (st.buffer.source.drop (curOffset st)) = sp
      rw [core.offset_text]
      exact hkN hk
    · intro hk
      rw [htok_new] at hk ⊢
      have hts : tokStart st' st.buffer.token_infos.length = curOffset st := by
        unfold tokStart curOffset
        rw [htok_new, hinfo]
        rfl
      rw [hspan_new, hts, hinfo]
      show (st.buffer.source.drop (curOffset st)).take elv = sp
      rw [core.offset_text]
      exact hkE hk
    · intro hk
      rw [htok_new] at hk
      exact absurd hk hkind_doc
  refine ⟨?_, ?_, ?_⟩
  · refine invcore_extend core info sp sp.length st' rfl rfl rfl rfl ?_ rfl rfl
      hmap_mono hmap_ok hmap_inj hids_len hids hle hnws rfl hkind_close
      (fun hk => absurd hk hkind_doc) hsp
    rcases hbracket with ⟨hg, ho⟩ | ⟨hg, ho⟩
    · exact Or.inl ⟨hg, ho⟩
    · exact Or.inr ⟨hg, ho, rfl⟩
  · intro hflag
    exact hiu hflag
  · intro ℓ hl
    have hl' : ℓ < st.buffer.line_infos.length := hl
    rcases hia ℓ hl' with h | ⟨i, hi, h1, h2⟩ | ⟨h1, h2⟩
    · exact Or.inl h
    · refine Or.inr ⟨i, ?_, ?_, ?_⟩
      · rw [hst']
        show i < (st.buffer.token_infos ++ [info]).length
        simp only [List.length_append, List.length_singleton]
        omega
      · rw [htok_old i hi]; exact h1
      · rw [htok_old i hi]; exact h2
    · refine Or.inr ⟨st.buffer.token_infos.length, ?_, ?_, ?_⟩
      · rw [hst']
        show st.buffer.token_infos.length < (st.buffer.token_infos ++ [info]).length
        simp
      · rw [htok_new, hinfo, h1]
      · rw [htok_new, hinfo]
        show (st.current_column : Int) = (getLine st' ℓ).indent
        have : (getLine st' ℓ).indent = (getLine st ℓ).indent := rfl
        rw [this, h2]

theorem indentAlmost_of_ok {st : LexState} (hio : IndentOK st) : IndentAlmost st :=
  fun ℓ hl => (hio ℓ hl).imp_right Or.inl

/-- `LexError` preserves the invariant (and the line table's length). -/
theorem lexError_inv {st : LexState} {text : List Char}
    (inv : Inv st text) (hnws : NonWsHead text) :
    Inv (lexError st text).1 (lexError st text).2 ∧
    (lexError st text).1.buffer.line_infos.length = st.buffer.line_infos.length := by
  obtain ⟨core, hiu, hio⟩ := inv
  simp only [lexError]
  by_cases he : (text.takeWhile errScanChar).isEmpty = true
  · rw [if_pos he]
    have hpref : text.take ((text.take 1).take (2 ^ 31 - 1)).length =
        (text.take 1).take (2 ^ 31 - 1) :=
      take_prefix_trans (List.take_prefix 1 text) _
    have hle : ((text.take 1).take (2 ^ 31 - 1)).length ≤ text.length := by
      simp only [List.length_take]
      have := Nat.min_le_left 1 text.length
      omega
    exact ⟨inv_token_op st text core hiu (indentAlmost_of_ok hio) hnws
      .Error 0 0 ((text.take 1).take (2 ^ 31 - 1)).length ((text.take 1).take (2 ^ 31 - 1))
      st.diags true st.buffer.int_literals st.buffer.identifier_map
      st.buffer.identifier_infos st.open_groups (Or.inl ⟨rfl, rfl⟩) rfl (by decide) hle
      (fun p hp => hp) core.map_ok core.map_inj (le_refl _) (fun h _ => rfl)
      (fun hk => absurd hk (by decide)) (fun hk => absurd hk (by decide))
      (fun _ => hpref), rfl⟩
  · rw [if_neg he]
    have hpref : text.take ((text.takeWhile errScanChar).take (2 ^ 31 - 1)).length =
        (text.takeWhile errScanChar).take (2 ^ 31 - 1) :=
      take_prefix_trans (List.takeWhile_prefix errScanChar) _
    have hle : ((text.takeWhile errScanChar).take (2 ^ 31 - 1)).length ≤ text.length := by
      simp only [List.length_take]
      have := takeWhile_length_le errScanChar text
      omega
    exact ⟨inv_token_op st text core hiu (indentAlmost_of_ok hio) hnws
      .Error 0 0 ((text.takeWhile errScanChar).take (2 ^ 31 - 1)).length
      ((text.takeWhile errScanChar).take (2 ^ 31 - 1))
      st.diags true st.buffer.int_literals st.buffer.identifier_map
      st.buffer.identifier_infos st.open_groups (Or.inl ⟨rfl, rfl⟩) rfl (by decide) hle
      (fun p hp => hp) core.map_ok core.map_inj (le_refl _) (fun h _ => rfl)
      (fun hk => absurd hk (by decide)) (fun hk => absurd hk (by decide))
      (fun _ => hpref), rfl⟩

/-- Behaviour of `GetOrCreateIdentifier`: the identifier tables remain
well-formed, grow monotonically, and the returned handle maps to the
requested text. -/
theorem getOrCreateIdentifier_spec (st : LexState) (textK : List Char)
    (hmap_ok : ∀ p ∈ st.buffer.identifier_map,
        p.2 < st.buffer.identifier_infos.length ∧
        st.buffer.identifier_infos.getD p.2 [] = p.1) :
    (∀ p ∈ st.buffer.identifier_map, p ∈ (getOrCreateIdentifier st textK).1.buffer.identifier_map) ∧
    (∀ p ∈ (getOrCreateIdentifier st textK).1.buffer.identifier_map,
        p.2 < (getOrCreateIdentifier st textK).1.buffer.identifier_infos.length ∧
        (getOrCreateIdentifier st textK).1.buffer.identifier_infos.getD p.2 [] = p.1) ∧
    ((∀ p ∈ st.buffer.identifier_map, ∀ w ∈ st.buffer.identifier_map, p.1 = w.1 → p.2 = w.2) →
      ∀ p ∈ (getOrCreateIdentifier st textK).1.buffer.identifier_map,
      ∀ w ∈ (getOrCreateIdentifier st textK).1.buffer.identifier_map, p.1 = w.1 → p.2 = w.2) ∧
    st.buffer.identifier_infos.length ≤
      (getOrCreateIdentifier st textK).1.buffer.identifier_infos.length ∧
    (∀ h < st.buffer.identifier_infos.length,
        (getOrCreateIdentifier st textK).1.buffer.identifier_infos.getD h [] =
          st.buffer.identifier_infos.getD h []) ∧
    (getOrCreateIdentifier st textK).2 <
      (getOrCreateIdentifier st textK).1.buffer.identifier_infos.length ∧
    (getOrCreateIdentifier st textK).1.buffer.identifier_infos.getD
      (getOrCreateIdentifier st textK).2 [] = textK ∧
    (∃ key, (key, (getOrCreateIdentifier st textK).2) ∈
      (getOrCreateIdentifier st textK).1.buffer.identifier_map) := by
  unfold getOrCreateIdentifier
  cases hfind : st.buffer.identifier_map.find? (fun p => p.1 == textK) with
  | some p =>
    have hmem : p ∈ st.buffer.identifier_map := List.mem_of_find?_eq_some hfind
    have hkey : p.1 = textK := by
      have := List.find?_some hfind
      simpa using this
    obtain ⟨hb, hg⟩ := hmap_ok p hmem
    exact ⟨fun w hw => hw, hmap_ok, fun hinj => hinj, le_refl _, fun h _ => rfl,
      hb, by rw [hg, hkey], ⟨p.1, by rw [show (p.1, p.2) = p from rfl]; exact hmem⟩⟩
  | none =>
    have hnotin : ∀ w ∈ st.buffer.identifier_map, w.1 ≠ textK := by
      intro w hw hweq
      have := List.find?_eq_none.mp hfind w hw
      simp [hweq] at this
    simp only
    refine ⟨?_, ?_, ?_, ?_, ?_, ?_, ?_, ?_⟩
    · intro w hw
      exact List.mem_append_left _ hw
    · intro w hw
      rcases List.mem_append.mp hw with hold | hnew
      · obtain ⟨hb, hg⟩ := hmap_ok w hold
        constructor
        · simp only [List.length_append, List.length_singleton]
          omega
        · rw [List.getD_append _ _ _ _ hb]
          exact hg
      · rw [List.mem_singleton.mp hnew]
        constructor
        · simp
        · exact getD_append_last _ _ _
    · intro hinj w hw v hv hkeq
      rcases List.mem_append.mp hw with hw | hw <;> rcases List.mem_append.mp hv with hv | hv
      · exact hinj w hw v hv hkeq
      · rw [List.mem_singleton.mp hv] at hkeq
        exact absurd hkeq (hnotin w hw)
      · rw [List.mem_singleton.mp hw] at hkeq
        exact absurd hkeq.symm (hnotin v hv)
      · rw [List.mem_singleton.mp hw, List.mem_singleton.mp hv]
    · simp
    · intro h hh
      exact List.getD_append _ _ _ _ hh
    · simp
    · exact getD_append_last _ _ _
    · exact ⟨textK, List.mem_append_right _ (List.mem_singleton.mpr rfl)⟩

/-- The identifier leg of `LexKeywordOrIdentifier`: interning the text
and appending an Identifier token preserves the invariant.  `st` is the
state after the `set_indent` step; the intern runs on the state with the
column already advanced, exactly as in the source. -/
theorem inv_ident_op
    (st : LexState) (text : List Char)
    (core : InvCore st text) (hiu : IndentUnset st) (hia : IndentAlmost st)
    (hnws : NonWsHead text) (sp : List Char)
    (q1 : LexState) (q2 : Nat)
    (hq : getOrCreateIdentifier
        { st with current_column := st.current_column + sp.length } sp = (q1, q2))
    (hle : sp.length ≤ text.length) :
    Inv (addToken q1
      { kind := .Identifier, token_line := q1.current_line,
        column := st.current_column, id := q2 } sp).1 (text.drop sp.length) ∧
    (addToken q1
      { kind := .Identifier, token_line := q1.current_line,
        column := st.current_column, id := q2 } sp).1.buffer.line_infos.length =
      st.buffer.line_infos.length := by
  simp only [getOrCreateIdentifier] at hq
  cases hfind : st.buffer.identifier_map.find? (fun p => p.1 == sp) with
  | some p =>
    rw [hfind] at hq
    cases hq
    have hmem : p ∈ st.buffer.identifier_map := List.mem_of_find?_eq_some hfind
    have hkey : p.1 = sp := by
      have := List.find?_some hfind
      simpa using this
    obtain ⟨hb, hg⟩ := core.map_ok p hmem
    exact ⟨inv_token_op st text core hiu hia hnws .Identifier p.2 0 0 sp
      st.diags st.buffer.has_errors st.buffer.int_literals
      st.buffer.identifier_map st.buffer.identifier_infos
      st.open_groups (Or.inl ⟨rfl, rfl⟩) rfl (by decide) hle
      (fun w hw => hw) core.map_ok core.map_inj
      (le_refl _) (fun h _ => rfl)
      (fun _ => ⟨hb, by rw [hg, hkey], p.1, by rw [show (p.1, p.2) = p from rfl]; exact hmem⟩)
      (fun hk => absurd hk (by decide)) (fun hk => absurd hk (by decide)), rfl⟩
  | none =>
    rw [hfind] at hq
    cases hq
    have hnotin : ∀ w ∈ st.buffer.identifier_map, w.1 ≠ sp := by
      intro w hw hweq
      have := List.find?_eq_none.mp hfind w hw
      simp [hweq] at this
    refine ⟨inv_token_op st text core hiu hia hnws .Identifier
      st.buffer.identifier_infos.length 0 0 sp
      st.diags st.buffer.has_errors st.buffer.int_literals
      (st.buffer.identifier_map ++ [(sp, st.buffer.identifier_infos.length)])
      (st.buffer.identifier_infos ++ [sp])
      st.open_groups (Or.inl ⟨rfl, rfl⟩) rfl (by decide) hle
      (fun w hw => List.mem_append_left _ hw) ?_ ?_ (by simp)
      (fun h hh => List.getD_append _ _ _ _ hh)
      (fun _ => ⟨by simp, getD_append_last _ _ _,
        sp, List.mem_append_right _ (List.mem_singleton.mpr rfl)⟩)
      (fun hk => absurd hk (by decide)) (fun hk => absurd hk (by decide)), rfl⟩
    · intro w hw
      rcases List.mem_append.mp hw with hold | hnew
      · obtain ⟨hb, hg⟩ := core.map_ok w hold
        refine ⟨?_, ?_⟩
        · simp only [List.length_append, List.length_singleton]
          omega
        · rw [List.getD_append _ _ _ _ hb]
          exact hg
      · rw [List.mem_singleton.mp hnew]
        exact ⟨by simp, getD_append_last _ _ _⟩
    · intro w hw v hv hkeq
      rcases List.mem_append.mp hw with hw | hw <;> rcases List.mem_append.mp hv with hv | hv
      · exact core.map_inj w hw v hv hkeq
      · rw [List.mem_singleton.mp hv] at hkeq
        exact absurd hkeq (hnotin w hw)
      · rw [List.mem_singleton.mp hw] at hkeq
        exact absurd hkeq.symm (hnotin v hv)
      · rw [List.mem_singleton.mp hw, List.mem_singleton.mp hv]

/-- `LexKeywordOrIdentifier` preserves the invariant (and the line
table's length). -/
theorem lexKeywordOrIdentifier_inv {st : LexState} {text : List Char}
    {r : LexState × List Char}
    (inv : Inv st text) (hnws : NonWsHead text)
    (h : lexKeywordOrIdentifier st text = some r) :
    Inv r.1 r.2 ∧ r.1.buffer.line_infos.length = st.buffer.line_infos.length := by
  obtain ⟨core, hiu, hio⟩ := inv
  have coreM : InvCore (setIndentTo st st.current_column) text := setIndentTo_invcore core _
  have hiuM : IndentUnset (setIndentTo st st.current_column) := setIndentTo_indentUnset st _
  have hiaM : IndentAlmost (setIndentTo st st.current_column) := setIndentTo_indentAlmost hio
  obtain ⟨hsrcM, htoksM, hmapM, hinfosM, hlitsM, herrM, hdiagsM, hspansM, hgroupsM,
    hclM, hccM, hlenM, hslM⟩ := setIndentTo_frame st st.current_column
  match text, hnws, h with
  | c :: rest, hnws, h =>
    simp only [lexKeywordOrIdentifier] at h
    split at h
    · exact absurd h (by simp)
    · have hle : ((c :: rest).takeWhile isIdChar).length ≤ (c :: rest).length :=
        takeWhile_length_le _ _
      have hkwprops : ∀ kk ∈ keywordKinds, kk.isOpeningSymbol = false ∧
          kk.isClosingSymbol = false ∧ kk ≠ .DocComment ∧ kk ≠ .Identifier ∧
          kk ≠ .IntegerLiteral ∧ kk ≠ .Error := by decide
      split at h
      · rename_i kind hkw
        have hmem : kind ∈ keywordKinds := List.mem_of_find?_eq_some hkw
        obtain ⟨p1, p2, p3, p4, p5, p6⟩ := hkwprops kind hmem
        cases h
        refine ⟨inv_token_op (setIndentTo st st.current_column) (c :: rest)
          coreM hiuM hiaM hnws kind 0 0 0 ((c :: rest).takeWhile isIdChar)
          (setIndentTo st st.current_column).diags
          (setIndentTo st st.current_column).buffer.has_errors
          (setIndentTo st st.current_column).buffer.int_literals
          (setIndentTo st st.current_column).buffer.identifier_map
          (setIndentTo st st.current_column).buffer.identifier_infos
          (setIndentTo st st.current_column).open_groups
          (Or.inl ⟨rfl, p1⟩) p2 p3 hle (fun p hp => hp)
          (by rw [hmapM, hinfosM]; exact core.map_ok)
          (by rw [hmapM]; exact core.map_inj)
          (le_refl _) (fun hh _ => rfl) (fun hk => absurd hk p4) (fun hk => absurd hk p5)
          (fun hk => absurd hk p6), ?_⟩
        show (setIndentTo st st.current_column).buffer.line_infos.length =
          st.buffer.line_infos.length
        exact hlenM
      · cases h
        refine ⟨(inv_ident_op (setIndentTo st st.current_column) (c :: rest)
          coreM hiuM hiaM hnws ((c :: rest).takeWhile isIdChar) _ _ rfl hle).1, ?_⟩
        exact ((inv_ident_op (setIndentTo st st.current_column) (c :: rest)
          coreM hiuM hiaM hnws ((c :: rest).takeWhile isIdChar) _ _ rfl hle).2).trans hlenM

/-- Case analysis on an if-then-else equation, usable where `split`
cannot generalize the discriminant. -/
theorem ite_eq_cases {α : Type _} {c : Prop} [Decidable c] {a b x : α}
    (h : (if c then a else b) = x) : (c ∧ a = x) ∨ (¬c ∧ b = x) := by
  by_cases hc : c
  · exact Or.inl ⟨hc, by rwa [if_pos hc] at h⟩
  · exact Or.inr ⟨hc, by rwa [if_neg hc] at h⟩

/-- A conditional `setErr` is an unconditional or-update of the error
flag. -/
theorem ite_setErr (c : Bool) (s : LexState) :
    (if c = true then setErr s else s) =
    { s with buffer.has_errors := c || s.buffer.has_errors } := by
  cases c
  · simp
  · simp [setErr]

/-- The common final-state shape of all three result branches of
`LexIntegerLiteral`: the indent step runs on the column-advanced state,
then one token (IntegerLiteral or Error) is appended at the saved
column, with arbitrary diagnostics / error-flag / literal-table
updates. -/
theorem inv_int_record
    (st : LexState) (text sp : List Char)
    (core : InvCore st text) (hiu : IndentUnset st) (hio : IndentOK st)
    (hnws : NonWsHead text)
    (kind : TokenKind) (litv elv : Nat)
    (diags' : List Diag) (he' : Bool) (lits' : List Nat)
    (hkind_open : kind.isOpeningSymbol = false)
    (hkind_close : kind.isClosingSymbol = false)
    (hkind_doc : kind ≠ .DocComment)
    (hkind_id : kind ≠ .Identifier)
    (hkN : kind = .IntegerLiteral → takeLeadingIntegerLiteral text = sp)
    (hkE : kind = .Error → text.take elv = sp)
    (hle : sp.length ≤ text.length) :
    Inv { setIndentTo { st with current_column := st.current_column + sp.length }
            st.current_column with
          buffer.token_infos :=
            (setIndentTo { st with current_column := st.current_column + sp.length }
              st.current_column).buffer.token_infos ++
            [{ kind := kind,
               token_line := (setIndentTo { st with current_column := st.current_column + sp.length }
                 st.current_column).current_line,
               column := st.current_column, error_length := elv, literal_index := litv }],
          buffer.int_literals := lits',
          buffer.has_errors := he',
          diags := diags',
          spans := (setIndentTo { st with current_column := st.current_column + sp.length }
            st.current_column).spans ++ [sp] }
      (text.drop sp.length) ∧
    ({ setIndentTo { st with current_column := st.current_column + sp.length }
            st.current_column with
          buffer.token_infos :=
            (setIndentTo { st with current_column := st.current_column + sp.length }
              st.current_column).buffer.token_infos ++
            [{ kind := kind,
               token_line := (setIndentTo { st with current_column := st.current_column + sp.length }
                 st.current_column).current_line,
               column := st.current_column, error_length := elv, literal_index := litv }],
          buffer.int_literals := lits',
          buffer.has_errors := he',
          diags := diags',
          spans := (setIndentTo { st with current_column := st.current_column + sp.length }
            st.current_column).spans ++ [sp] } : LexState).buffer.line_infos.length =
      st.buffer.line_infos.length := by
  by_cases hset : st.set_indent = true
  · have e : setIndentTo { st with current_column := st.current_column + sp.length }
        st.current_column =
        { st with current_column := st.current_column + sp.length } := by
      simp [setIndentTo, hset]
    rw [e]
    exact ⟨inv_token_op st text core hiu (indentAlmost_of_ok hio) hnws kind 0 litv elv sp
      diags' he' lits' st.buffer.identifier_map st.buffer.identifier_infos
      st.open_groups (Or.inl ⟨rfl, hkind_open⟩)
      hkind_close hkind_doc hle (fun p hp => hp) core.map_ok core.map_inj
      (le_refl _) (fun h _ => rfl) (fun hk => absurd hk hkind_id) hkN hkE, rfl⟩
  · have hset' : st.set_indent = false := by simpa using hset
    have e : setIndentTo { st with current_column := st.current_column + sp.length }
        st.current_column =
        { st with
          buffer.line_infos := listModify
            (fun li => { li with indent := (st.current_column : Int) })
            st.current_line st.buffer.line_infos,
          set_indent := true,
          current_column := st.current_column + sp.length } := by
      simp [setIndentTo, modifyLine, hset']
    have e2 : setIndentTo st st.current_column =
        { st with
          buffer.line_infos := listModify
            (fun li => { li with indent := (st.current_column : Int) })
            st.current_line st.buffer.line_infos,
          set_indent := true } := by
      simp [setIndentTo, modifyLine, hset']
    have coreP := setIndentTo_invcore core st.current_column
    have hiuP := setIndentTo_indentUnset st st.current_column
    have hiaP := @setIndentTo_indentAlmost st hio
    rw [e2] at coreP hiuP hiaP
    rw [e]
    refine ⟨inv_token_op
      { st with
        buffer.line_infos := listModify
          (fun li => { li with indent := (st.current_column : Int) })
          st.current_line st.buffer.line_infos,
        set_indent := true } text coreP hiuP hiaP hnws kind 0 litv elv sp
      diags' he' lits' st.buffer.identifier_map st.buffer.identifier_infos
      st.open_groups (Or.inl ⟨rfl, hkind_open⟩)
      hkind_close hkind_doc hle (fun p hp => hp) coreP.map_ok coreP.map_inj
      (le_refl _) (fun h _ => rfl) (fun hk => absurd hk hkind_id) hkN hkE, ?_⟩
    show (listModify (fun li => { li with indent := (st.current_column : Int) })
      st.current_line st.buffer.line_infos).length = st.buffer.line_infos.length
    exact listModify_length _ _ _

/-- `LexIntegerLiteral` preserves the invariant (and the line table's
length). -/
theorem lexIntegerLiteral_inv {st : LexState} {text : List Char}
    {r : LexState × List Char}
    (inv : Inv st text) (hnws : NonWsHead text)
    (h : lexIntegerLiteral st text = some r) :
    Inv r.1 r.2 ∧ r.1.buffer.line_infos.length = st.buffer.line_infos.length := by
  obtain ⟨core, hiu, hio⟩ := inv
  have hle : (takeLeadingIntegerLiteral text).length ≤ text.length :=
    takeLeadingIntegerLiteral_length_le text
  have htake : text.take (takeLeadingIntegerLiteral text).length =
      takeLeadingIntegerLiteral text := takeLeadingIntegerLiteral_take text
  simp only [lexIntegerLiteral] at h
  split at h
  · exact absurd h (by simp)
  · split at h
    · cases h
      exact inv_int_record st text (takeLeadingIntegerLiteral text) core hiu hio hnws
        .Error 0 (takeLeadingIntegerLiteral text).length _ _ _
        rfl rfl (by decide) (by decide) (fun hk => absurd hk (by decide))
        (fun _ => htake) hle
    · rw [ite_setErr] at h
      rcases ite_eq_cases h with ⟨_, h⟩ | ⟨_, h⟩
      · cases h
        exact inv_int_record st text (takeLeadingIntegerLiteral text) core hiu hio hnws
          .Error 0 (takeLeadingIntegerLiteral text).length _ _ _
          rfl rfl (by decide) (by decide) (fun hk => absurd hk (by decide))
          (fun _ => htake) hle
      · cases h
        exact inv_int_record st text (takeLeadingIntegerLiteral text) core hiu hio hnws
          .IntegerLiteral _ 0 _ _ _
          rfl rfl (by decide) (by decide) (fun _ => rfl)
          (fun hk => absurd hk (by decide)) hle

/-! ### Symbol tokens and bracket matching -/

theorem listModify_append_left {α : Type} (f : α → α) :
    ∀ (i : Nat) (l l2 : List α), i < l.length →
      listModify f i (l ++ l2) = listModify f i l ++ l2
  | _, [], _, h => by simp at h
  | 0, _ :: _, _, _ => by simp [listModify]
  | i + 1, a :: as, l2, h => by
    simp only [List.cons_append, listModify, List.cons.injEq, true_and]
    exact listModify_append_left f i as l2 (by simpa using h)

theorem listModify_last {α : Type} (f : α → α) :
    ∀ (l : List α) (a : α), listModify f l.length (l ++ [a]) = l ++ [f a]
  | [], a => by simp [listModify]
  | b :: bs, a => by
    simp only [List.cons_append, List.length_cons, listModify, List.cons.injEq, true_and]
    exact listModify_last f bs a

theorem opening_kind_props (k : TokenKind) (hk : k.isOpeningSymbol = true) :
    k.isClosingSymbol = false ∧ k ≠ .Identifier ∧ k ≠ .IntegerLiteral ∧
    k ≠ .Error ∧ k ≠ .DocComment := by
  cases k <;> revert hk <;> decide

theorem closingSymbol_props (k : TokenKind) (hk : k.isOpeningSymbol = true) :
    k.closingSymbol.isClosingSymbol = true ∧ k.closingSymbol.isOpeningSymbol = false ∧
    k.closingSymbol ≠ .Identifier ∧ k.closingSymbol ≠ .IntegerLiteral ∧
    k.closingSymbol ≠ .Error ∧ k.closingSymbol ≠ .DocComment := by
  cases k <;> revert hk <;> decide

theorem closing_kind_not_opening (k : TokenKind) (hk : k.isClosingSymbol = true) :
    k.isOpeningSymbol = false := by
  cases k <;> revert hk <;> decide

theorem symbolKinds_props (k : TokenKind) (hk : k ∈ symbolKinds) :
    k ≠ .Error ∧ k ≠ .Identifier ∧ k ≠ .IntegerLiteral ∧ k ≠ .DocComment := by
  fin_cases hk <;> decide

theorem lineEnd_congr_all {st st' : LexState}
    (hlines : st'.buffer.line_infos = st.buffer.line_infos)
    (hcl : st'.current_line = st.current_line)
    (hcc : st'.current_column = st.current_column) (ℓ : Nat) :
    lineEnd st' ℓ = lineEnd st ℓ := by
  unfold lineEnd getLine
  rw [hlines, hcl, hcc]

/-- Closing the innermost open group: a closing-bracket token (real or
recovery) is appended at the current column and cross-linked with the
opening token popped from the group stack, with arbitrary diagnostic and
error-flag updates.  Instantiated both by the recovery step of
`CloseInvalidOpenGroups` (`sp = []`, no column movement) and by the
matched-closing path of `LexSymbolToken`. -/
theorem inv_close_op
    (st : LexState) (text : List Char)
    (core : InvCore st text) (hiu : IndentUnset st) (hia : IndentAlmost st)
    (top : Nat) (restG : List Nat) (hg : st.open_groups = top :: restG)
    (k : TokenKind) (hkc : k = (getTok st top).kind.closingSymbol)
    (rcv : Bool) (sp : List Char) (diags' : List Diag) (he' : Bool)
    (hdoc : ∀ i, i < st.buffer.token_infos.length → (getTok st i).kind = .DocComment →
      (getTok st i).token_line ≠ st.current_line ∨ sp = [])
    (hle : sp.length ≤ text.length) :
    Inv { st with
        buffer.token_infos := listModify (fun ti => { ti with opening_token := some top })
          st.buffer.token_infos.length
          (listModify
            (fun ti => { ti with closing_token := some st.buffer.token_infos.length })
            top
            (st.buffer.token_infos ++
              [{ kind := k, token_line := st.current_line, column := st.current_column,
                 is_recovery := rcv }])),
        buffer.has_errors := he',
        diags := diags',
        current_column := st.current_column + sp.length,
        open_groups := restG,
        spans := st.spans ++ [sp] }
      (text.drop sp.length) := by
  have htopmem : top ∈ st.open_groups := by rw [hg]; exact List.mem_cons_self _ _
  obtain ⟨htopb, htopo, htopct⟩ := core.groups_ok top htopmem
  obtain ⟨hkcs, hkos, hkid, hkint, hkerr, hkdoc⟩ := closingSymbol_props _ htopo
  obtain ⟨-, htid, htint, hterr, htdoc⟩ := opening_kind_props _ htopo
  have hnd := core.groups_nodup
  rw [hg] at hnd
  have htopnot : top ∉ restG := (List.nodup_cons.mp hnd).1
  set L := st.buffer.token_infos.length with hL
  set info : TokenInfo :=
    { kind := k, token_line := st.current_line, column := st.current_column,
      is_recovery := rcv } with hinfo
  set f : TokenInfo → TokenInfo :=
    fun ti => { ti with closing_token := some L } with hfdef
  set g : TokenInfo → TokenInfo :=
    fun ti => { ti with opening_token := some top } with hgdef
  set st' : LexState := { st with
      buffer.token_infos := listModify g L (listModify f top (st.buffer.token_infos ++ [info])),
      buffer.has_errors := he',
      diags := diags',
      current_column := st.current_column + sp.length,
      open_groups := restG,
      spans := st.spans ++ [sp] } with hst'
  have htoks : st'.buffer.token_infos =
      listModify f top st.buffer.token_infos ++ [g info] := by
    show listModify g L (listModify f top (st.buffer.token_infos ++ [info])) = _
    rw [listModify_append_left f top _ [info] htopb]
    have hlm : L = (listModify f top st.buffer.token_infos).length := by
      rw [listModify_length]
    rw [hlm, listModify_last]
  have hlen2 : st'.buffer.token_infos.length = L + 1 := by
    rw [htoks]
    simp [listModify_length]
  have htok_old : ∀ j, j < L → j ≠ top → getTok st' j = getTok st j := by
    intro j hj hjt
    unfold getTok
    rw [htoks, List.getD_append _ _ _ _ (by rw [listModify_length]; exact hj)]
    exact getD_listModify_ne f dTok top j _ (Ne.symm hjt)
  have htok_top : getTok st' top = f (getTok st top) := by
    unfold getTok
    rw [htoks, List.getD_append _ _ _ _ (by rw [listModify_length]; exact htopb)]
    exact getD_listModify_self f dTok top _ htopb
  have htok_new : getTok st' L = g info := by
    unfold getTok
    rw [htoks]
    have hlm : L = (listModify f top st.buffer.token_infos).length := by
      rw [listModify_length]
    rw [hlm]
    exact getD_append_last _ _ _
  have hknew : (getTok st' L).kind = k := by rw [htok_new]
  have hkind_pres : ∀ j, j < L → (getTok st' j).kind = (getTok st j).kind := by
    intro j hj
    by_cases hjt : j = top
    · subst hjt; rw [htok_top]
    · rw [htok_old j hj hjt]
  have hline_pres : ∀ j, j < L → (getTok st' j).token_line = (getTok st j).token_line := by
    intro j hj
    by_cases hjt : j = top
    · subst hjt; rw [htok_top]
    · rw [htok_old j hj hjt]
  have hcol_pres : ∀ j, j < L → (getTok st' j).column = (getTok st j).column := by
    intro j hj
    by_cases hjt : j = top
    · subst hjt; rw [htok_top]
    · rw [htok_old j hj hjt]
  have hop_pres : ∀ j, j < L →
      (getTok st' j).opening_token = (getTok st j).opening_token := by
    intro j hj
    by_cases hjt : j = top
    · subst hjt; rw [htok_top]
    · rw [htok_old j hj hjt]
  refine ⟨⟨?_, ?_, ?_, ?_, ?_, ?_, ?_, ?_, ?_, ?_, ?_, ?_, ?_, ?_⟩, ?_, ?_⟩
  · exact core.lines_ne
  · exact core.cur_line
  · show st.buffer.source.drop (curOffset st') = text.drop sp.length
    have hoff : curOffset st' = curOffset st + sp.length := by
      show (getLine st st.current_line).start + (st.current_column + sp.length) = _
      unfold curOffset
      omega
    rw [hoff, ← List.drop_drop, core.offset_text]
  · show curOffset st' + (text.drop sp.length).length = st.buffer.source.length
    have hoff : curOffset st' = curOffset st + sp.length := by
      show (getLine st st.current_line).start + (st.current_column + sp.length) = _
      unfold curOffset
      omega
    rw [hoff, List.length_drop]
    have := core.offset_len
    omega
  · intro i hi
    rw [hlen2] at hi
    show (getTok st' i).token_line < st.buffer.line_infos.length
    rcases Nat.lt_succ_iff_lt_or_eq.mp hi with hlt | heq
    · rw [hline_pres i hlt]
      exact core.tok_line_lt i hlt
    · rw [heq, htok_new]
      show st.current_line < st.buffer.line_infos.length
      have := core.cur_line
      omega
  · show (st.spans ++ [sp]).length = st'.buffer.token_infos.length
    rw [hlen2, List.length_append, List.length_singleton, core.spans_len]
  · intro i hi
    rw [hlen2] at hi
    rcases Nat.lt_succ_iff_lt_or_eq.mp hi with hlt | heq
    · by_cases hit : i = top
      · subst hit
        refine ⟨fun hk => ?_, fun hk => ?_, fun hk => ?_, fun hk => ?_⟩ <;>
          rw [htok_top] at hk
        · exact absurd hk htid
        · exact absurd hk htint
        · exact absurd hk hterr
        · exact absurd hk htdoc
      · refine spanOK_mono (show st'.buffer.source = st.buffer.source from rfl)
          (htok_old i hlt hit) ?_ rfl ?_ (le_refl _)
          (fun _ _ => rfl) (fun p hp => hp) (core.spans_ok i hlt)
        · show (st.spans ++ [sp]).getD i [] = st.spans.getD i []
          exact List.getD_append _ _ _ _ (by rw [core.spans_len]; exact hlt)
        · intro hkdoc'
          rcases hdoc i hlt hkdoc' with hne | hspe
          · exact lineEnd_congr rfl rfl hne
          · refine lineEnd_congr_all
              (show st'.buffer.line_infos = st.buffer.line_infos from rfl) rfl ?_ _
            show st.current_column + sp.length = st.current_column
            rw [hspe]
            rfl
    · subst heq
      refine ⟨fun hk => ?_, fun hk => ?_, fun hk => ?_, fun hk => ?_⟩ <;>
        rw [hknew, hkc] at hk
      · exact absurd hk hkid
      · exact absurd hk hkint
      · exact absurd hk hkerr
      · exact absurd hk hkdoc
  · exact core.map_ok
  · exact core.map_inj
  · exact hnd.of_cons
  · intro q hq
    have hqmem : q ∈ st.open_groups := by rw [hg]; exact List.mem_cons_of_mem _ hq
    have hqt : q ≠ top := fun he => htopnot (he ▸ hq)
    obtain ⟨hq1, hq2, hq3⟩ := core.groups_ok q hqmem
    refine ⟨by rw [hlen2]; omega, ?_, ?_⟩
    · rw [htok_old q hq1 hqt]; exact hq2
    · rw [htok_old q hq1 hqt]; exact hq3
  · intro i hi hopn hmem
    rw [hlen2] at hi
    rcases Nat.lt_succ_iff_lt_or_eq.mp hi with hlt | heq
    · by_cases hit : i = top
      · subst hit
        refine ⟨L, by rw [hlen2]; omega, ?_, ?_, ?_⟩
        · rw [htok_top]
        · rw [htok_new]
        · rw [htok_new, htok_top]
          exact hkc
      · have hnotin : i ∉ st.open_groups := by
          rw [hg]
          intro hx
          rcases List.mem_cons.mp hx with h | h
          · exact hit h
          · exact hmem h
        rw [hkind_pres i hlt] at hopn
        obtain ⟨j, hj, h1, h2, h3⟩ := core.open_linked i hlt hopn hnotin
        refine ⟨j, by rw [hlen2]; omega, ?_, ?_, ?_⟩
        · rw [htok_old i hlt hit]; exact h1
        · rw [hop_pres j hj]; exact h2
        · rw [hkind_pres j hj, hkind_pres i hlt]; exact h3
    · subst heq
      rw [hknew, hkc] at hopn
      rw [hkos] at hopn
      cases hopn
  · intro i hi hcls
    rw [hlen2] at hi
    rcases Nat.lt_succ_iff_lt_or_eq.mp hi with hlt | heq
    · rw [hkind_pres i hlt] at hcls
      obtain ⟨j, hj, h1, h2, h3, h4⟩ := core.close_linked i hlt hcls
      have hjt : j ≠ top := by
        intro he
        rw [he, htopct] at h2
        cases h2
      refine ⟨j, by rw [hlen2]; omega, ?_, ?_, ?_, ?_⟩
      · rw [hop_pres i hlt]; exact h1
      · rw [htok_old j hj hjt]; exact h2
      · rw [hkind_pres j hj]; exact h3
      · rw [hkind_pres i hlt, hkind_pres j hj]; exact h4
    · subst heq
      refine ⟨top, by rw [hlen2]; omega, ?_, ?_, ?_, ?_⟩
      · rw [htok_new]
      · rw [htok_top]
      · rw [hkind_pres top htopb]; exact htopo
      · rw [hknew, hkind_pres top htopb]; exact hkc
  · intro i hi hk
    rw [hlen2] at hi
    rcases Nat.lt_succ_iff_lt_or_eq.mp hi with hlt | heq
    · rw [hkind_pres i hlt] at hk
      rcases hdoc i hlt hk with hne | hspe
      · refine Or.inl ?_
        show (getTok st' i).token_line ≠ st.current_line
        rw [hline_pres i hlt]
        exact hne
      · rcases core.doc_not_cur i hlt hk with hne | htxt | hhead
        · refine Or.inl ?_
          show (getTok st' i).token_line ≠ st.current_line
          rw [hline_pres i hlt]
          exact hne
        · refine Or.inr (Or.inl ?_)
          rw [hspe, htxt]
          rfl
        · refine Or.inr (Or.inr ?_)
          rw [hspe]
          exact hhead
    · subst heq
      rw [hknew, hkc] at hk
      exact absurd hk hkdoc
  · intro hflag
    exact hiu hflag
  · intro ℓ hl
    have hl' : ℓ < st.buffer.line_infos.length := hl
    rcases hia ℓ hl' with h | ⟨i, hi, h1, h2⟩ | ⟨h1, h2⟩
    · exact Or.inl h
    · refine Or.inr ⟨i, by rw [hlen2]; omega, ?_, ?_⟩
      · rw [hline_pres i hi]; exact h1
      · rw [hcol_pres i hi]; exact h2
    · refine Or.inr ⟨L, by rw [hlen2]; omega, ?_, ?_⟩
      · have hnl : (getTok st' L).token_line = st.current_line := by rw [htok_new]
        rw [hnl, h1]
      · have hnc : (getTok st' L).column = st.current_column := by rw [htok_new]
        rw [hnc]
        exact h2.symm

/-- The unmatched-closing path of `LexSymbolToken`: the freshly added
closing token is rewritten in place to an `Error` token covering its
spelling, the error flag is set, and `UnmatchedClosing` is emitted. -/
theorem inv_unmatched_op
    (st : LexState) (text : List Char)
    (core : InvCore st text) (hiu : IndentUnset st) (hia : IndentAlmost st)
    (hnws : NonWsHead text)
    (k : TokenKind) (sp : List Char)
    (hsp : text.take sp.length = sp)
    (hle : sp.length ≤ text.length) :
    Inv { st with
        buffer.token_infos := listModify
          (fun ti => { ti with kind := .Error, error_length := sp.length })
          st.buffer.token_infos.length
          (st.buffer.token_infos ++
            [{ kind := k, token_line := st.current_line, column := st.current_column }]),
        buffer.has_errors := true,
        diags := st.diags ++ [Diag.UnmatchedClosing],
        current_column := st.current_column + sp.length,
        spans := st.spans ++ [sp] }
      (text.drop sp.length) := by
  rw [listModify_last]
  exact inv_token_op st text core hiu hia hnws .Error 0 0 sp.length sp
    (st.diags ++ [Diag.UnmatchedClosing]) true st.buffer.int_literals
    st.buffer.identifier_map st.buffer.identifier_infos st.open_groups
    (Or.inl ⟨rfl, rfl⟩) rfl (by decide) hle (fun p hp => hp) core.map_ok core.map_inj
    (le_refl _) (fun h _ => rfl) (fun hk => absurd hk (by decide))
    (fun hk => absurd hk (by decide)) (fun _ => hsp)

/-- The `while` loop of `CloseInvalidOpenGroups` preserves the invariant
in its pre-token `IndentAlmost` form, leaves all non-bracket, non-token
state alone, and stops only on an empty stack or on a top group whose
kind `kind` closes. -/
theorem closeGroupsLoop_inv (kind : TokenKind) :
    ∀ (fuel : Nat) (st : LexState) (text : List Char) (st' : LexState),
    InvCore st text → IndentUnset st → IndentAlmost st →
    st.open_groups.length ≤ fuel →
    closeGroupsLoop kind fuel st = st' →
    InvCore st' text ∧
    IndentUnset st' ∧
    IndentAlmost st' ∧
    (IndentOK st → IndentOK st') ∧
    st'.buffer.line_infos = st.buffer.line_infos ∧
    st'.current_line = st.current_line ∧
    st'.current_column = st.current_column ∧
    st'.set_indent = st.set_indent ∧
    st'.buffer.source = st.buffer.source ∧
    (st'.open_groups = [] ∨
      ∃ top restG, st'.open_groups = top :: restG ∧
        kind = (getTok st' top).kind.closingSymbol) := by
  intro fuel
  induction fuel with
  | zero =>
    intro st text st' core hiu hia hfl hrun
    have hge : st.open_groups = [] := List.eq_nil_of_length_eq_zero (by omega)
    simp only [closeGroupsLoop] at hrun
    subst hrun
    exact ⟨core, hiu, hia, fun hok => hok, rfl, rfl, rfl, rfl, rfl, Or.inl hge⟩
  | succ fuel ih =>
    intro st text st' core hiu hia hfl hrun
    cases hg : st.open_groups with
    | nil =>
      simp only [closeGroupsLoop, hg] at hrun
      subst hrun
      exact ⟨core, hiu, hia, fun hok => hok, rfl, rfl, rfl, rfl, rfl, Or.inl hg⟩
    | cons top restG =>
      simp only [closeGroupsLoop, hg] at hrun
      by_cases hk : kind = (getTok st top).kind.closingSymbol
      · rw [if_pos hk] at hrun
        subst hrun
        exact ⟨core, hiu, hia, fun hok => hok, rfl, rfl, rfl, rfl, rfl,
          Or.inr ⟨top, restG, hg, hk⟩⟩
      · rw [if_neg hk] at hrun
        have hstep := inv_close_op st text core hiu hia top restG hg
          ((getTok st top).kind.closingSymbol) rfl true []
          (st.diags ++ [Diag.MismatchedClosing]) true
          (fun _ _ _ => Or.inr rfl) (Nat.zero_le _)
        obtain ⟨coreS, hiuS, hioS⟩ := hstep
        have hfl' : restG.length ≤ fuel := by
          rw [hg] at hfl
          simp only [List.length_cons] at hfl
          omega
        obtain ⟨c1, c2, c3, cOK, c4, c5, c6, c7, c8, c9⟩ :=
          ih _ text st' coreS hiuS (indentAlmost_of_ok hioS) hfl' hrun
        exact ⟨c1, c2, c3, fun _ => cOK hioS, c4, c5, c6, c7, c8, c9⟩

/-- `LexSymbolToken` preserves the invariant (and the line table's
length). -/
theorem lexSymbolToken_inv {st : LexState} {text : List Char}
    {r : LexState × List Char}
    (inv : Inv st text) (hnws : NonWsHead text)
    (h : lexSymbolToken st text = some r) :
    Inv r.1 r.2 ∧ r.1.buffer.line_infos.length = st.buffer.line_infos.length := by
  obtain ⟨core, hiu, hio⟩ := inv
  have coreM : InvCore (setIndentTo st st.current_column) text := setIndentTo_invcore core _
  have hiuM := setIndentTo_indentUnset st st.current_column
  have hiaM := setIndentTo_indentAlmost hio
  obtain ⟨hsrcM, htoksM, hmapM, hinfosM, hlitsM, herrM, hdiagsM, hspansM, hgroupsM,
    hclM, hccM, hlenM, hslM⟩ := setIndentTo_frame st st.current_column
  simp only [lexSymbolToken] at h
  split at h
  · exact absurd h (by simp)
  · rename_i kind hm
    obtain ⟨hkerr, hkid, hkint, hkdoc⟩ := symbolKinds_props kind (List.mem_of_find?_eq_some hm)
    have hpre : kind.fixedSpelling.isPrefixOf text = true := by
      have := List.find?_some hm
      simpa using this
    have hle : kind.fixedSpelling.length ≤ text.length := length_le_of_isPrefixOf hpre
    have htk : text.take kind.fixedSpelling.length = kind.fixedSpelling :=
      take_of_isPrefixOf hpre
    by_cases hop : kind.isOpeningSymbol = true
    · obtain ⟨hkc, -, -, -, -⟩ := opening_kind_props kind hop
      have hcond : ¬kind.isClosingSymbol = true ∧ kind ≠ TokenKind.Error :=
        ⟨by simp [hkc], hkerr⟩
      simp only [closeInvalidOpenGroups] at h
      rw [if_pos hcond, if_pos hop] at h
      cases h
      refine ⟨?_, hlenM⟩
      exact inv_token_op (setIndentTo st st.current_column) text coreM hiuM hiaM hnws
        kind 0 0 0 kind.fixedSpelling
        (setIndentTo st st.current_column).diags
        (setIndentTo st st.current_column).buffer.has_errors
        (setIndentTo st st.current_column).buffer.int_literals
        (setIndentTo st st.current_column).buffer.identifier_map
        (setIndentTo st st.current_column).buffer.identifier_infos
        ((setIndentTo st st.current_column).buffer.token_infos.length ::
          (setIndentTo st st.current_column).open_groups)
        (Or.inr ⟨rfl, hop⟩) hkc hkdoc hle (fun p hp => hp) coreM.map_ok coreM.map_inj
        (le_refl _) (fun hh _ => rfl) (fun hk => absurd hk hkid)
        (fun hk => absurd hk hkint) (fun hk => absurd hk hkerr)
    · have hop' : kind.isOpeningSymbol = false := by simpa using hop
      by_cases hcls : kind.isClosingSymbol = true
      · have hcond : ¬(¬kind.isClosingSymbol = true ∧ kind ≠ TokenKind.Error) :=
          fun hx => hx.1 hcls
        have hcop : ¬kind.isOpeningSymbol = true := by simp [hop']
        have hccl : ¬¬kind.isClosingSymbol = true := by simp [hcls]
        simp only [closeInvalidOpenGroups] at h
        rw [if_neg hcond, if_neg hcop, if_neg hccl] at h
        obtain ⟨coreC, hiuC, hiaC, hokC, hlinesC, hclC, hccC, hsiC, hsrcC, hpost⟩ :=
          closeGroupsLoop_inv kind (setIndentTo st st.current_column).open_groups.length
            (setIndentTo st st.current_column) text _ coreM hiuM hiaM (le_refl _) rfl
        split at h
        · rename_i heq
          cases h
          refine ⟨?_, ?_⟩
          · exact inv_unmatched_op
              (closeGroupsLoop kind (setIndentTo st st.current_column).open_groups.length
                (setIndentTo st st.current_column)) text coreC hiuC hiaC hnws
              kind kind.fixedSpelling htk hle
          · show (closeGroupsLoop kind (setIndentTo st st.current_column).open_groups.length
                (setIndentTo st st.current_column)).buffer.line_infos.length =
              st.buffer.line_infos.length
            rw [hlinesC]
            exact hlenM
        · rename_i opening restG' heq
          rcases hpost with hge | ⟨top, restG, hgeq, hkeq⟩
          · exact absurd (heq.symm.trans hge) (List.cons_ne_nil _ _)
          · have h12 := heq.symm.trans hgeq
            rw [List.cons.injEq] at h12
            obtain ⟨he1, he2⟩ := h12
            subst he1
            subst he2
            cases h
            refine ⟨?_, ?_⟩
            · exact inv_close_op
                (closeGroupsLoop kind (setIndentTo st st.current_column).open_groups.length
                  (setIndentTo st st.current_column)) text coreC hiuC hiaC
                opening restG' hgeq kind hkeq false kind.fixedSpelling _ _
                (fun i hi hk => Or.inl (doc_ne_cur_of_nws coreC hnws i hi hk)) hle
            · show (closeGroupsLoop kind (setIndentTo st st.current_column).open_groups.length
                  (setIndentTo st st.current_column)).buffer.line_infos.length =
                st.buffer.line_infos.length
              rw [hlinesC]
              exact hlenM
      · have hcls' : kind.isClosingSymbol = false := by simpa using hcls
        have hcond : ¬kind.isClosingSymbol = true ∧ kind ≠ TokenKind.Error :=
          ⟨by simp [hcls'], hkerr⟩
        have hcop : ¬kind.isOpeningSymbol = true := by simp [hop']
        simp only [closeInvalidOpenGroups] at h
        rw [if_pos hcond, if_neg hcop, if_pos hcond.1] at h
        cases h
        refine ⟨?_, hlenM⟩
        exact inv_token_op (setIndentTo st st.current_column) text coreM hiuM hiaM hnws
          kind 0 0 0 kind.fixedSpelling
          (setIndentTo st st.current_column).diags
          (setIndentTo st st.current_column).buffer.has_errors
          (setIndentTo st st.current_column).buffer.int_literals
          (setIndentTo st st.current_column).buffer.identifier_map
          (setIndentTo st st.current_column).buffer.identifier_infos
          (setIndentTo st st.current_column).open_groups
          (Or.inl ⟨rfl, hop'⟩) hcls' hkdoc hle (fun p hp => hp) coreM.map_ok coreM.map_inj
          (le_refl _) (fun hh _ => rfl) (fun hk => absurd hk hkid)
          (fun hk => absurd hk hkint) (fun hk => absurd hk hkerr)

/-! ### Whitespace, newline and comment bookkeeping -/

theorem nlFollowed_cons_ne {c : Char} (rest : List Char) (hc : c ≠ '\n') :
    nlFollowed (c :: rest) = nlFollowed rest := by
  cases rest with
  | nil => rfl
  | cons d rs => simp [nlFollowed, hc]

theorem nlFollowed_cons_nl {rest : List Char} (hne : rest ≠ []) :
    nlFollowed ('\n' :: rest) = 1 + nlFollowed rest := by
  cases rest with
  | nil => exact absurd rfl hne
  | cons d rs => simp [nlFollowed]

theorem nlFollowed_drop : ∀ (d : Nat) (text : List Char),
    '\n' ∉ text.take d → nlFollowed (text.drop d) = nlFollowed text
  | 0, _, _ => rfl
  | _ + 1, [], _ => rfl
  | d + 1, c :: rest, h => by
    simp only [List.take_succ_cons, List.mem_cons, not_or] at h
    rw [List.drop_succ_cons, nlFollowed_drop d rest h.2,
      nlFollowed_cons_ne rest (fun he => h.1 he.symm)]

theorem dropWhile_eq_drop_len (p : Char → Bool) (l : List Char) :
    l.dropWhile p = l.drop (l.takeWhile p).length := by
  nth_rewrite 3 [← List.takeWhile_append_dropWhile (p := p) (l := l)]
  rw [List.drop_left]

theorem dropWhile_head (p : Char → Bool) : ∀ (l : List Char),
    l.dropWhile p = [] ∨ p ((l.dropWhile p).headD ' ') = false
  | [] => Or.inl rfl
  | c :: rest => by
    by_cases h : p c = true
    · simpa [List.dropWhile_cons, h] using dropWhile_head p rest
    · have h' : p c = false := by simpa using h
      simp [List.dropWhile_cons, h']

/-- Consuming `d` text characters while only advancing the column (the
space, tab and plain-comment cases of `SkipWhitespace`) preserves the
invariant, provided the text's head is not a newline. -/
theorem inv_skip {st : LexState} {text : List Char}
    (inv : Inv st text) (hne : text ≠ []) (hhead : text.headD ' ' ≠ '\n')
    (d : Nat) (hd : d ≤ text.length) :
    Inv { st with current_column := st.current_column + d } (text.drop d) := by
  obtain ⟨core, hiu, hio⟩ := inv
  have hdocne : ∀ i, i < st.buffer.token_infos.length →
      (getTok st i).kind = .DocComment → (getTok st i).token_line ≠ st.current_line := by
    intro i hi hk
    rcases core.doc_not_cur i hi hk with h | h | h
    · exact h
    · exact absurd h hne
    · exact absurd h hhead
  set st' : LexState := { st with current_column := st.current_column + d } with hst'
  have hoff : curOffset st' = curOffset st + d := by
    show (getLine st st.current_line).start + (st.current_column + d) = _
    unfold curOffset
    omega
  refine ⟨⟨core.lines_ne, core.cur_line, ?_, ?_, core.tok_line_lt, core.spans_len, ?_,
    core.map_ok, core.map_inj, core.groups_nodup, core.groups_ok, core.open_linked,
    core.close_linked, ?_⟩, hiu, hio⟩
  · show st.buffer.source.drop (curOffset st') = text.drop d
    rw [hoff, ← List.drop_drop, core.offset_text]
  · show curOffset st' + (text.drop d).length = st.buffer.source.length
    rw [hoff, List.length_drop]
    have := core.offset_len
    omega
  · intro i hi
    refine spanOK_mono (show st'.buffer.source = st.buffer.source from rfl) rfl rfl rfl
      ?_ (le_refl _) (fun _ _ => rfl) (fun p hp => hp) (core.spans_ok i hi)
    intro hk
    exact lineEnd_congr (show st'.buffer.line_infos = st.buffer.line_infos from rfl) rfl
      (hdocne i hi hk)
  · intro i hi hk
    exact Or.inl (hdocne i hi hk)

/-- Appending one `DocComment` token at the current column and advancing
the column over the comment text (which runs to just before the next
newline) preserves the invariant. -/
theorem inv_doc_record
    (st : LexState) (text : List Char)
    (core : InvCore st text) (hiu : IndentUnset st) (hia : IndentAlmost st)
    (hnws : NonWsHead text) :
    Inv { st with
        buffer.token_infos := st.buffer.token_infos ++
          [{ kind := .DocComment, token_line := st.current_line,
             column := st.current_column }],
        current_column := st.current_column +
          (text.takeWhile (fun ch => ch != '\n')).length,
        spans := st.spans ++ [text.takeWhile (fun ch => ch != '\n')] }
      (text.drop (text.takeWhile (fun ch => ch != '\n')).length) := by
  set sp := text.takeWhile (fun ch => ch != '\n') with hspdef
  set info : TokenInfo :=
    { kind := .DocComment, token_line := st.current_line,
      column := st.current_column } with hinfo
  set st' : LexState := { st with
      buffer.token_infos := st.buffer.token_infos ++ [info],
      current_column := st.current_column + sp.length,
      spans := st.spans ++ [sp] } with hst'
  have hle : sp.length ≤ text.length := takeWhile_length_le _ _
  have hdochead : text.drop sp.length = [] ∨ (text.drop sp.length).headD ' ' = '\n' := by
    rw [← dropWhile_eq_drop_len]
    rcases dropWhile_head (fun ch => ch != '\n') text with h | h
    · exact Or.inl h
    · refine Or.inr ?_
      simpa using h
  have htok_new : getTok st' st.buffer.token_infos.length = info := by
    unfold getTok
    rw [hst']
    exact getD_append_last _ _ _
  have htok_old : ∀ j < st.buffer.token_infos.length, getTok st' j = getTok st j := by
    intro j hj
    unfold getTok
    rw [hst']
    exact List.getD_append _ _ _ _ hj
  have hts : tokStart st' st.buffer.token_infos.length = curOffset st := by
    unfold tokStart curOffset
    rw [htok_new, hinfo]
    rfl
  have hspnew : spanOK st' st.buffer.token_infos.length := by
    refine ⟨fun hk => ?_, fun hk => ?_, fun hk => ?_, fun hk => ?_⟩
    · rw [htok_new] at hk
      cases hk
    · rw [htok_new] at hk
      cases hk
    · rw [htok_new] at hk
      cases hk
    · have hspan_new : st'.spans.getD st.buffer.token_infos.length [] = sp := by
        rw [hst']
        show (st.spans ++ [sp]).getD st.buffer.token_infos.length [] = sp
        rw [← core.spans_len]
        exact getD_append_last _ _ _
      have hend : lineEnd st' (getTok st' st.buffer.token_infos.length).token_line =
          curOffset st + sp.length := by
        rw [htok_new, hinfo]
        show lineEnd st' st.current_line = _
        unfold lineEnd
        rw [if_pos rfl]
        show (getLine st st.current_line).start + (st.current_column + sp.length) = _
        unfold curOffset
        omega
      rw [hspan_new, hend, hts]
      show (st.buffer.source.take (curOffset st + sp.length)).drop (curOffset st) = sp
      rw [List.drop_take]
      have harith : curOffset st + sp.length - curOffset st = sp.length := by omega
      rw [harith, core.offset_text]
      exact take_takeWhile_self _ text
  refine ⟨invcore_extend core info sp sp.length st' rfl rfl rfl rfl (Or.inl ⟨rfl, rfl⟩)
      rfl rfl (fun p hp => hp) core.map_ok core.map_inj (le_refl _) (fun h _ => rfl)
      hle hnws rfl rfl (fun _ => hdochead) hspnew, ?_, ?_⟩
  · intro hflag
    exact hiu hflag
  · intro ℓ hl
    have hl' : ℓ < st.buffer.line_infos.length := hl
    rcases hia ℓ hl' with h | ⟨i, hi, h1, h2⟩ | ⟨h1, h2⟩
    · exact Or.inl h
    · refine Or.inr ⟨i, ?_, ?_, ?_⟩
      · rw [hst']
        show i < (st.buffer.token_infos ++ [info]).length
        simp only [List.length_append, List.length_singleton]
        omega
      · rw [htok_old i hi]; exact h1
      · rw [htok_old i hi]; exact h2
    · refine Or.inr ⟨st.buffer.token_infos.length, ?_, ?_, ?_⟩
      · rw [hst']
        show st.buffer.token_infos.length < (st.buffer.token_infos ++ [info]).length
        simp
      · rw [htok_new, hinfo, h1]
      · rw [htok_new, hinfo]
        show (st.current_column : Int) = (getLine st' ℓ).indent
        have hind : (getLine st' ℓ).indent = (getLine st ℓ).indent := rfl
        rw [hind, h2]

/-- The `///` step of `SkipWhitespace`: `AddDocCommentToken` runs (on an
unset-indent line) and the column advances over the comment text. -/
theorem inv_doc_op {st : LexState} {c : Char} {rest : List Char}
    (inv : Inv st (c :: rest)) (hsi : st.set_indent = false)
    (hnws : NonWsHead (c :: rest)) :
    Inv { addDocCommentToken st ((c :: rest).takeWhile (fun ch => ch != '\n')) with
          current_column := st.current_column +
            ((c :: rest).takeWhile (fun ch => ch != '\n')).length }
      ((c :: rest).dropWhile (fun ch => ch != '\n')) ∧
    (addDocCommentToken st
        ((c :: rest).takeWhile (fun ch => ch != '\n'))).buffer.line_infos.length =
      st.buffer.line_infos.length := by
  obtain ⟨core, hiu, hio⟩ := inv
  have coreM : InvCore (setIndentTo st st.current_column) (c :: rest) :=
    setIndentTo_invcore core _
  have hiuM := setIndentTo_indentUnset st st.current_column
  have hiaM := setIndentTo_indentAlmost hio
  have e2 : setIndentTo st st.current_column =
      { st with
        buffer.line_infos := listModify
          (fun li => { li with indent := (st.current_column : Int) })
          st.current_line st.buffer.line_infos,
        set_indent := true } := by
    simp [setIndentTo, modifyLine, hsi]
  rw [e2] at coreM hiuM hiaM
  have hrec := inv_doc_record
    { st with
      buffer.line_infos := listModify
        (fun li => { li with indent := (st.current_column : Int) })
        st.current_line st.buffer.line_infos,
      set_indent := true } (c :: rest) coreM hiuM hiaM hnws
  rw [dropWhile_eq_drop_len]
  refine ⟨hrec, ?_⟩
  show (listModify (fun li => { li with indent := (st.current_column : Int) })
    st.current_line st.buffer.line_infos).length = st.buffer.line_infos.length
  exact listModify_length _ _ _

theorem setLineLength_facts (st : LexState)
    (hcur_lt : st.current_line < st.buffer.line_infos.length) :
    (∀ ℓ, (getLine (setLineLength st) ℓ).start = (getLine st ℓ).start) ∧
    (∀ ℓ, (getLine (setLineLength st) ℓ).indent = (getLine st ℓ).indent) ∧
    (getLine (setLineLength st) st.current_line).length = st.current_column ∧
    (∀ ℓ, st.current_line ≠ ℓ →
      (getLine (setLineLength st) ℓ).length = (getLine st ℓ).length) ∧
    (setLineLength st).buffer.line_infos.length = st.buffer.line_infos.length := by
  refine ⟨?_, ?_, ?_, ?_, ?_⟩
  · intro ℓ
    unfold getLine setLineLength modifyLine
    by_cases hℓ : st.current_line = ℓ
    · subst hℓ
      rw [getD_listModify_self _ _ _ _ hcur_lt]
    · rw [getD_listModify_ne _ _ _ _ _ hℓ]
  · intro ℓ
    unfold getLine setLineLength modifyLine
    by_cases hℓ : st.current_line = ℓ
    · subst hℓ
      rw [getD_listModify_self _ _ _ _ hcur_lt]
    · rw [getD_listModify_ne _ _ _ _ _ hℓ]
  · unfold getLine setLineLength modifyLine
    rw [getD_listModify_self _ _ _ _ hcur_lt]
  · intro ℓ hℓ
    unfold getLine setLineLength modifyLine
    rw [getD_listModify_ne _ _ _ _ _ hℓ]
  · show (listModify _ _ _).length = _
    exact listModify_length _ _ _

/-- The mid-input newline step of `SkipWhitespace`: finalize the current
line's length and start the next line. -/
theorem inv_newline {st : LexState} {rest : List Char}
    (inv : Inv st ('\n' :: rest)) :
    Inv (startNewLine (setLineLength st)) rest ∧
    (startNewLine (setLineLength st)).buffer.line_infos.length =
      st.buffer.line_infos.length + 1 := by
  obtain ⟨core, hiu, hio⟩ := inv
  have hcur_lt : st.current_line < st.buffer.line_infos.length := by
    have := core.cur_line
    omega
  obtain ⟨hSstart, hSindent, hSlen_cur, hSlen_ne, hSlines⟩ := setLineLength_facts st hcur_lt
  have hlines2 : (startNewLine (setLineLength st)).buffer.line_infos =
      (setLineLength st).buffer.line_infos ++
      [{ start := (getLine (setLineLength st) st.current_line).start +
          st.current_column + 1, length := 0, indent := 0 }] := rfl
  have hcl2 : (startNewLine (setLineLength st)).current_line =
      (setLineLength st).buffer.line_infos.length := rfl
  have hcc2 : (startNewLine (setLineLength st)).current_column = 0 := rfl
  have hlen2 : (startNewLine (setLineLength st)).buffer.line_infos.length =
      st.buffer.line_infos.length + 1 := by
    rw [hlines2]
    simp [hSlines]
  have hL2old : ∀ ℓ, ℓ < st.buffer.line_infos.length →
      getLine (startNewLine (setLineLength st)) ℓ = getLine (setLineLength st) ℓ := by
    intro ℓ hℓ
    unfold getLine
    rw [hlines2]
    exact List.getD_append _ _ _ _ (by rw [hSlines]; exact hℓ)
  have hL2new : getLine (startNewLine (setLineLength st))
      (setLineLength st).buffer.line_infos.length =
      { start := (getLine (setLineLength st) st.current_line).start +
          st.current_column + 1, length := 0, indent := 0 } := by
    unfold getLine
    rw [hlines2]
    exact getD_append_last _ _ _
  have hoff2 : curOffset (startNewLine (setLineLength st)) = curOffset st + 1 := by
    unfold curOffset
    rw [hcl2, hcc2, hL2new, hSstart]
  refine ⟨⟨⟨?_, ?_, ?_, ?_, ?_, ?_, ?_, core.map_ok, core.map_inj, core.groups_nodup,
    core.groups_ok, core.open_linked, core.close_linked, ?_⟩, ?_, ?_⟩, hlen2⟩
  · rw [hlines2]
    simp
  · rw [hcl2, hlen2, hSlines]
  · show st.buffer.source.drop (curOffset (startNewLine (setLineLength st))) = rest
    rw [hoff2, ← List.drop_drop, core.offset_text]
    rfl
  · show curOffset (startNewLine (setLineLength st)) + rest.length =
      st.buffer.source.length
    rw [hoff2]
    have := core.offset_len
    simp only [List.length_cons] at this
    omega
  · intro i hi
    have htl := core.tok_line_lt i hi
    show (getTok st i).token_line < (startNewLine (setLineLength st)).buffer.line_infos.length
    rw [hlen2]
    omega
  · exact core.spans_len
  · intro i hi
    have htl := core.tok_line_lt i hi
    refine spanOK_mono
      (show (startNewLine (setLineLength st)).buffer.source = st.buffer.source from rfl)
      rfl rfl ?_ ?_ (le_refl _) (fun _ _ => rfl) (fun p hp => hp) (core.spans_ok i hi)
    · rw [hL2old _ htl, hSstart]
    · intro hk
      unfold lineEnd
      have hne2 : (getTok st i).token_line ≠
          (startNewLine (setLineLength st)).current_line := by
        rw [hcl2, hSlines]
        omega
      rw [if_neg hne2, hL2old _ htl, hSstart]
      by_cases hc : (getTok st i).token_line = st.current_line
      · rw [if_pos hc, hc, hSlen_cur]
      · rw [if_neg hc, hSlen_ne _ (fun he => hc he.symm)]
  · intro i hi hk
    have htl := core.tok_line_lt i hi
    refine Or.inl ?_
    show (getTok st i).token_line ≠ (startNewLine (setLineLength st)).current_line
    rw [hcl2, hSlines]
    omega
  · intro hflag
    show (getLine (startNewLine (setLineLength st))
      (startNewLine (setLineLength st)).current_line).indent = 0
    rw [hcl2, hL2new]
  · intro ℓ hl
    rw [hlen2] at hl
    rcases Nat.lt_succ_iff_lt_or_eq.mp hl with hlt | heq
    · rcases hio ℓ hlt with h | ⟨i, hi, h1, h2⟩
      · refine Or.inl ?_
        rw [hL2old _ hlt, hSindent]
        exact h
      · refine Or.inr ⟨i, hi, h1, ?_⟩
        rw [hL2old _ hlt, hSindent]
        exact h2
    · refine Or.inl ?_
      have hidx : ℓ = (setLineLength st).buffer.line_infos.length := by
        rw [hSlines]
        exact heq
      rw [hidx, hL2new]

/-- The end-of-input cases of `SkipWhitespace` (empty remaining text, or
a final newline with nothing after it): the current line's length is
finalized and lexing stops. -/
theorem inv_eof {st : LexState} {text : List Char}
    (inv : Inv st text) (htxt : text = [] ∨ text = ['\n']) :
    InvCore (setLineLength st) text ∧ IndentUnset (setLineLength st) ∧
    IndentOK (setLineLength st) ∧
    (getLine (setLineLength st) (setLineLength st).current_line).length =
      (setLineLength st).current_column ∧
    (setLineLength st).buffer.line_infos.length = st.buffer.line_infos.length := by
  obtain ⟨core, hiu, hio⟩ := inv
  have hcur_lt : st.current_line < st.buffer.line_infos.length := by
    have := core.cur_line
    omega
  obtain ⟨hSstart, hSindent, hSlen_cur, hSlen_ne, hSlines⟩ := setLineLength_facts st hcur_lt
  have hoffS : curOffset (setLineLength st) = curOffset st := by
    unfold curOffset
    rw [hSstart]
    rfl
  refine ⟨⟨?_, ?_, ?_, ?_, ?_, core.spans_len, ?_, core.map_ok, core.map_inj,
    core.groups_nodup, core.groups_ok, core.open_linked, core.close_linked, ?_⟩,
    ?_, ?_, hSlen_cur, hSlines⟩
  · rw [← List.length_pos, hSlines]
    omega
  · show st.current_line + 1 = (setLineLength st).buffer.line_infos.length
    rw [hSlines]
    exact core.cur_line
  · show st.buffer.source.drop (curOffset (setLineLength st)) = text
    rw [hoffS]
    exact core.offset_text
  · show curOffset (setLineLength st) + text.length = st.buffer.source.length
    rw [hoffS]
    exact core.offset_len
  · intro i hi
    show (getTok st i).token_line < (setLineLength st).buffer.line_infos.length
    rw [hSlines]
    exact core.tok_line_lt i hi
  · intro i hi
    refine spanOK_mono
      (show (setLineLength st).buffer.source = st.buffer.source from rfl)
      rfl rfl ?_ ?_ (le_refl _) (fun _ _ => rfl) (fun p hp => hp) (core.spans_ok i hi)
    · rw [hSstart]
    · intro hk
      unfold lineEnd
      by_cases hc : (getTok st i).token_line = st.current_line
      · rw [if_pos (show (getTok st i).token_line = (setLineLength st).current_line
            from hc), if_pos hc, hSstart]
        rfl
      · rw [if_neg (show ¬(getTok st i).token_line = (setLineLength st).current_line
            from hc), if_neg hc, hSstart, hSlen_ne _ (fun he => hc he.symm)]
  · intro i hi hk
    exact core.doc_not_cur i hi hk
  · intro hflag
    show (getLine (setLineLength st) (setLineLength st).current_line).indent = 0
    rw [hSindent]
    exact hiu hflag
  · intro ℓ hl
    rw [hSlines] at hl
    rcases hio ℓ hl with h | ⟨i, hi, h1, h2⟩
    · refine Or.inl ?_
      rw [hSindent]
      exact h
    · refine Or.inr ⟨i, hi, h1, ?_⟩
      rw [hSindent]
      exact h2

theorem skipLineRest_eq : ∀ (n : Nat) (text : List Char),
    skipLineRest n text =
      (n + (text.takeWhile (fun c => c != '\n')).length,
       text.dropWhile (fun c => c != '\n'))
  | n, [] => by simp [skipLineRest]
  | n, c :: rest => by
    by_cases h : c = '\n'
    · simp [skipLineRest, h]
    · have hb : (c != '\n') = true := by simpa using h
      simp only [skipLineRest, List.takeWhile_cons, List.dropWhile_cons, hb,
        if_true, beq_iff_eq, h, if_false, List.length_cons,
        skipLineRest_eq (n + 1) rest, Prod.mk.injEq]
      exact ⟨by omega, by simp⟩

theorem nonWsHead_of_conds {c : Char} {t : List Char}
    (h1 : (c == '\n') = false) (h2 : (c == ' ' || c == '\t') = false) :
    NonWsHead (c :: t) := by
  refine ⟨c, t, rfl, ?_, ?_, ?_⟩ <;> simp_all

theorem takeWhile_length_pos {p : Char → Bool} {c : Char} {rest : List Char}
    (h : p c = true) : 1 ≤ ((c :: rest).takeWhile p).length := by
  simp [List.takeWhile_cons, h]

theorem comment_head_slash {c : Char} {rest : List Char}
    (hS : isSlashSlash (c :: rest) = true) : (c != '\n') = true := by
  have hc : c = '/' := by
    cases rest with
    | nil => simp [isSlashSlash] at hS
    | cons d t =>
      simp only [isSlashSlash, Bool.and_eq_true, beq_iff_eq] at hS
      exact hS.1
  simp [hc]

theorem comment_head_char {c : Char} {rest : List Char}
    (hS : isSlashSlash (c :: rest) = true) : c = '/' := by
  cases rest with
  | nil => simp [isSlashSlash] at hS
  | cons d t =>
    simp only [isSlashSlash, Bool.and_eq_true, beq_iff_eq] at hS
    exact hS.1

/-- Invariant preservation and line bookkeeping of `SkipWhitespace`: the
line table grows exactly by the consumed newlines that have a successor
character; a `true` result leaves a valid state; a `false` result leaves
a finished buffer whose current line's length is final. -/
theorem skipWhitespaceF_inv : ∀ (fuel : Nat) (st : LexState) (text : List Char),
    Inv st text → text.length < fuel →
    ((skipWhitespaceF fuel st text).2.1.buffer.line_infos.length +
        nlFollowed (skipWhitespaceF fuel st text).2.2 =
      st.buffer.line_infos.length + nlFollowed text) ∧
    ((skipWhitespaceF fuel st text).1 = true →
      Inv (skipWhitespaceF fuel st text).2.1 (skipWhitespaceF fuel st text).2.2) ∧
    ((skipWhitespaceF fuel st text).1 = false →
      (∃ tF, (tF = [] ∨ tF = ['\n']) ∧ InvCore (skipWhitespaceF fuel st text).2.1 tF) ∧
      IndentUnset (skipWhitespaceF fuel st text).2.1 ∧
      IndentOK (skipWhitespaceF fuel st text).2.1 ∧
      (getLine (skipWhitespaceF fuel st text).2.1
          (skipWhitespaceF fuel st text).2.1.current_line).length =
        (skipWhitespaceF fuel st text).2.1.current_column) := by
  intro fuel
  induction fuel with
  | zero => intro st text inv h; omega
  | succ fuel ih =>
    intro st text inv h
    match text with
    | [] =>
      obtain ⟨c1, c2, c3, c4, c5⟩ := inv_eof inv (Or.inl rfl)
      refine ⟨?_, ?_, ?_⟩
      · show (setLineLength st).buffer.line_infos.length + nlFollowed [] =
          st.buffer.line_infos.length + nlFollowed []
        rw [c5]
      · intro hb
        simp [skipWhitespaceF] at hb
      · intro _
        exact ⟨⟨[], Or.inl rfl, c1⟩, c2, c3, c4⟩
    | c :: rest =>
      simp only [skipWhitespaceF]
      by_cases hA : (isSlashSlash (c :: rest) && !st.set_indent) = true
      · rw [if_pos hA]
        have hAs := hA
        simp only [Bool.and_eq_true] at hAs
        have hcn : (c != '\n') = true := comment_head_slash hAs.1
        have hc : c ≠ '\n' := by simpa using hcn
        have hsi : st.set_indent = false := by
          have := hAs.2
          simpa using this
        rw [skipLineRest_eq]
        simp only [Nat.zero_add]
        have hnl : nlFollowed ((c :: rest).dropWhile (fun ch => ch != '\n')) =
            nlFollowed (c :: rest) := by
          rw [dropWhile_eq_drop_len]
          refine nlFollowed_drop _ _ ?_
          rw [take_takeWhile_self]
          exact not_mem_takeWhile_of_pred (by simp) _
        have hlt : ((c :: rest).dropWhile (fun ch => ch != '\n')).length < fuel := by
          have h1 : 1 ≤ ((c :: rest).takeWhile (fun ch => ch != '\n')).length :=
            takeWhile_length_pos hcn
          have h2 : ((c :: rest).dropWhile (fun ch => ch != '\n')).length =
              (c :: rest).length - ((c :: rest).takeWhile (fun ch => ch != '\n')).length := by
            rw [dropWhile_eq_drop_len, List.length_drop]
          simp only [List.length_cons] at h h2
          omega
        by_cases hT : isTripleSlash (c :: rest) = true
        · rw [if_pos hT]
          have hcs : c = '/' := comment_head_char hAs.1
          have hnws : NonWsHead (c :: rest) := by
            refine ⟨c, rest, rfl, ?_, ?_, ?_⟩ <;> rw [hcs] <;> decide
          obtain ⟨hdoc1, hdoc2⟩ := inv_doc_op ⟨inv.1, inv.2.1, inv.2.2⟩ hsi hnws
          obtain ⟨ihA, ihB, ihC⟩ := ih _ _ hdoc1 hlt
          refine ⟨?_, ihB, ihC⟩
          have heq2 : (addDocCommentToken st
              ((c :: rest).takeWhile (fun ch => ch != '\n'))).buffer.line_infos.length +
              nlFollowed ((c :: rest).dropWhile (fun ch => ch != '\n')) =
              st.buffer.line_infos.length + nlFollowed (c :: rest) := by
            rw [hdoc2, hnl]
          exact ihA.trans heq2
        · rw [if_neg hT]
          have hskip := inv_skip inv (by simp) (by simpa using hc)
            ((c :: rest).takeWhile (fun ch => ch != '\n')).length (takeWhile_length_le _ _)
          have hskip2 : Inv { st with current_column := st.current_column +
              ((c :: rest).takeWhile (fun ch => ch != '\n')).length }
              ((c :: rest).dropWhile (fun ch => ch != '\n')) := by
            rw [dropWhile_eq_drop_len]
            exact hskip
          obtain ⟨ihA, ihB, ihC⟩ := ih _ _ hskip2 hlt
          refine ⟨?_, ihB, ihC⟩
          have heq2 : st.buffer.line_infos.length +
              nlFollowed ((c :: rest).dropWhile (fun ch => ch != '\n')) =
              st.buffer.line_infos.length + nlFollowed (c :: rest) := by
            rw [hnl]
          exact ihA.trans heq2
      · rw [if_neg hA]
        by_cases hB : (c == '\n') = true
        · rw [if_pos hB]
          have hceq : c = '\n' := by simpa using hB
          subst hceq
          by_cases hE : rest.isEmpty = true
          · rw [if_pos hE]
            have hrnil : rest = [] := by simpa [List.isEmpty_iff] using hE
            subst hrnil
            obtain ⟨c1, c2, c3, c4, c5⟩ := inv_eof inv (Or.inr rfl)
            refine ⟨?_, ?_, ?_⟩
            · show (setLineLength st).buffer.line_infos.length + nlFollowed [] =
                st.buffer.line_infos.length + nlFollowed ['\n']
              rw [c5]
              rfl
            · intro hb
              simp at hb
            · intro _
              exact ⟨⟨['\n'], Or.inr rfl, c1⟩, c2, c3, c4⟩
          · rw [if_neg hE]
            have hrne : rest ≠ [] := by simpa [List.isEmpty_iff] using hE
            obtain ⟨hnew1, hnew2⟩ := inv_newline inv
            have hlt : rest.length < fuel := by
              simp only [List.length_cons] at h
              omega
            obtain ⟨ihA, ihB, ihC⟩ := ih _ _ hnew1 hlt
            refine ⟨?_, ihB, ihC⟩
            have heq2 : (startNewLine (setLineLength st)).buffer.line_infos.length +
                nlFollowed rest =
                st.buffer.line_infos.length + nlFollowed ('\n' :: rest) := by
              rw [hnew2, nlFollowed_cons_nl hrne]
              omega
            exact ihA.trans heq2
        · rw [if_neg hB]
          by_cases hC : (c == ' ' || c == '\t') = true
          · rw [if_pos hC]
            have hc : c ≠ '\n' := by simpa using hB
            have hskip := inv_skip inv (by simp) (by simpa using hc) 1 (by simp)
            have hlt : rest.length < fuel := by
              simp only [List.length_cons] at h
              omega
            obtain ⟨ihA, ihB, ihC⟩ := ih _ rest hskip hlt
            refine ⟨?_, ihB, ihC⟩
            have heq2 : st.buffer.line_infos.length + nlFollowed rest =
                st.buffer.line_infos.length + nlFollowed (c :: rest) := by
              rw [nlFollowed_cons_ne rest hc]
            exact ihA.trans heq2
          · rw [if_neg hC]
            refine ⟨rfl, fun _ => inv, ?_⟩
            intro hb
            simp at hb

/-! ### Shape, progress and fuel-adequacy lemmas -/

/-- Result shape of `SkipWhitespace` (with adequate fuel): the remaining
text is a suffix of the input; on a `true` result it starts with a
non-whitespace character, on a `false` result it is empty. -/
theorem skipWhitespaceF_shape : ∀ (fuel : Nat) (st : LexState) (text : List Char),
    text.length < fuel →
    (∃ k, (skipWhitespaceF fuel st text).2.2 = text.drop k) ∧
    ((skipWhitespaceF fuel st text).1 = true → NonWsHead (skipWhitespaceF fuel st text).2.2) ∧
    ((skipWhitespaceF fuel st text).1 = false → (skipWhitespaceF fuel st text).2.2 = []) := by
  intro fuel
  induction fuel with
  | zero => intro st text h; omega
  | succ fuel ih =>
    intro st text h
    match text with
    | [] =>
      refine ⟨⟨0, rfl⟩, ?_, fun _ => rfl⟩
      simp [skipWhitespaceF]
    | c :: rest =>
      simp only [skipWhitespaceF]
      by_cases hA : (isSlashSlash (c :: rest) && !st.set_indent) = true
      · rw [if_pos hA]
        have hcn : (c != '\n') = true := by
          simp only [Bool.and_eq_true] at hA
          exact comment_head_slash hA.1
        rw [skipLineRest_eq]
        have hlen1 : 1 ≤ ((c :: rest).takeWhile (fun ch => ch != '\n')).length :=
          takeWhile_length_pos hcn
        have hdw : ((c :: rest).dropWhile (fun ch => ch != '\n')).length
            = (c :: rest).length - ((c :: rest).takeWhile (fun ch => ch != '\n')).length := by
          rw [dropWhile_eq_drop_len, List.length_drop]
        have hlt : ((c :: rest).dropWhile (fun ch => ch != '\n')).length < fuel := by
          simp only [hdw, List.length_cons] at *
          omega
        obtain ⟨⟨k, hk⟩, htrue, hfalse⟩ := ih _ ((c :: rest).dropWhile (fun ch => ch != '\n')) hlt
        refine ⟨⟨((c :: rest).takeWhile (fun ch => ch != '\n')).length + k, ?_⟩, htrue, hfalse⟩
        rw [hk, dropWhile_eq_drop_len, List.drop_drop]
      · rw [if_neg hA]
        by_cases hB : (c == '\n') = true
        · rw [if_pos hB]
          by_cases hE : rest.isEmpty = true
          · rw [if_pos hE]
            have : rest = [] := by simpa [List.isEmpty_iff] using hE
            exact ⟨⟨(c :: rest).length, by simp [List.drop_length]⟩, by simp, fun _ => rfl⟩
          · rw [if_neg hE]
            have hlt : rest.length < fuel := by
              simp only [List.length_cons] at h; omega
            obtain ⟨⟨k, hk⟩, htrue, hfalse⟩ := ih (startNewLine (setLineLength st)) rest hlt
            exact ⟨⟨1 + k, by rw [hk, show (c :: rest).drop (1 + k) = rest.drop k from by
              rw [← List.drop_drop]; rfl]⟩, htrue, hfalse⟩
        · rw [if_neg hB]
          by_cases hC : (c == ' ' || c == '\t') = true
          · rw [if_pos hC]
            have hlt : rest.length < fuel := by
              simp only [List.length_cons] at h; omega
            obtain ⟨⟨k, hk⟩, htrue, hfalse⟩ := ih _ rest hlt
            exact ⟨⟨1 + k, by rw [hk, show (c :: rest).drop (1 + k) = rest.drop k from by
              rw [← List.drop_drop]; rfl]⟩, htrue, hfalse⟩
          · rw [if_neg hC]
            exact ⟨⟨0, rfl⟩, fun _ => nonWsHead_of_conds (by simpa using hB) (by simpa using hC),
              by simp⟩

/-- `SkipWhitespace` computes the same result under any adequate
fuel. -/
theorem skipWhitespaceF_fuel : ∀ (f1 f2 : Nat) (st : LexState) (text : List Char),
    text.length < f1 → text.length < f2 →
    skipWhitespaceF f1 st text = skipWhitespaceF f2 st text := by
  intro f1
  induction f1 with
  | zero => intro f2 st text h; omega
  | succ a ih =>
    intro f2 st text h1 h2
    match f2, h2 with
    | b + 1, h2 =>
      match text with
      | [] => rfl
      | c :: rest =>
        simp only [skipWhitespaceF]
        by_cases hA : (isSlashSlash (c :: rest) && !st.set_indent) = true
        · simp only [if_pos hA]
          have hcn : (c != '\n') = true := by
            simp only [Bool.and_eq_true] at hA
            exact comment_head_slash hA.1
          rw [skipLineRest_eq]
          have hlen1 : 1 ≤ ((c :: rest).takeWhile (fun ch => ch != '\n')).length :=
            takeWhile_length_pos hcn
          have hdw : ((c :: rest).dropWhile (fun ch => ch != '\n')).length
              = (c :: rest).length - ((c :: rest).takeWhile (fun ch => ch != '\n')).length := by
            rw [dropWhile_eq_drop_len, List.length_drop]
          exact ih b _ (List.dropWhile (fun ch => ch != '\n') (c :: rest))
            (by simp only [hdw, List.length_cons] at *; omega)
            (by simp only [hdw, List.length_cons] at *; omega)
        · simp only [if_neg hA]
          by_cases hB : (c == '\n') = true
          · simp only [if_pos hB]
            by_cases hE : rest.isEmpty = true
            · simp only [if_pos hE]
            · simp only [if_neg hE]
              exact ih b _ rest
                (by simp only [List.length_cons] at h1; omega)
                (by simp only [List.length_cons] at h2; omega)
          · simp only [if_neg hB]
            by_cases hC : (c == ' ' || c == '\t') = true
            · simp only [if_pos hC]
              exact ih b _ rest
                (by simp only [List.length_cons] at h1; omega)
                (by simp only [List.length_cons] at h2; omega)
            · simp only [if_neg hC]

/-- `LexSymbolToken` consumes the matched spelling: at least one
character. -/
theorem lexSymbolToken_consumes {st : LexState} {text : List Char} {r : LexState × List Char}
    (h : lexSymbolToken st text = some r) :
    ∃ k, 1 ≤ k ∧ k ≤ text.length ∧ r.2 = text.drop k ∧ '\n' ∉ text.take k := by
  unfold lexSymbolToken at h
  cases hm : symbolMatch text with
  | none => rw [hm] at h; exact absurd h (by simp)
  | some kind =>
    rw [hm] at h
    unfold symbolMatch at hm
    have hmem : kind ∈ symbolKinds := List.mem_of_find?_eq_some hm
    have hpref : kind.fixedSpelling.isPrefixOf text = true := by
      have := List.find?_some hm
      simpa using this
    have hlen : 1 ≤ kind.fixedSpelling.length := by
      fin_cases hmem <;> simp [TokenKind.fixedSpelling]
    have hle : kind.fixedSpelling.length ≤ text.length := length_le_of_isPrefixOf hpref
    refine ⟨kind.fixedSpelling.length, hlen, hle, ?_, ?_⟩
    · simp only at h
      split at h
      · cases h; rfl
      · split at h
        · cases h; rfl
        · split at h <;> (cases h; rfl)
    · rw [take_of_isPrefixOf hpref]
      fin_cases hmem <;> decide

/-- `LexKeywordOrIdentifier` consumes the identifier run: at least one
character. -/
theorem lexKeywordOrIdentifier_consumes {st : LexState} {text : List Char}
    {r : LexState × List Char} (h : lexKeywordOrIdentifier st text = some r) :
    ∃ k, 1 ≤ k ∧ k ≤ text.length ∧ r.2 = text.drop k ∧ '\n' ∉ text.take k := by
  match text with
  | [] => exact absurd h (by simp [lexKeywordOrIdentifier])
  | c :: rest =>
    simp only [lexKeywordOrIdentifier] at h
    split at h
    · exact absurd h (by simp)
    · rename_i hc
      have hc' : (isAlpha c || c == '_') = true := by
        simp only [Bool.not_eq_true', Bool.not_eq_false] at hc
        exact hc
      have hcid : isIdChar c = true := by
        rcases Bool.or_eq_true_iff.mp hc' with ha | hb
        · simp [isIdChar, isAlnum, ha]
        · simp [isIdChar, hb]
      have hlen : 1 ≤ ((c :: rest).takeWhile isIdChar).length := takeWhile_length_pos hcid
      have hle : ((c :: rest).takeWhile isIdChar).length ≤ (c :: rest).length :=
        takeWhile_length_le _ _
      refine ⟨((c :: rest).takeWhile isIdChar).length, hlen, hle, ?_, ?_⟩
      · split at h <;> (cases h; rfl)
      · rw [take_takeWhile_self]
        exact not_mem_takeWhile_of_pred (by decide) (c :: rest)

/-- `LexIntegerLiteral` consumes the greedy literal span: at least one
character. -/
theorem lexIntegerLiteral_consumes {st : LexState} {text : List Char}
    {r : LexState × List Char} (h : lexIntegerLiteral st text = some r) :
    ∃ k, 1 ≤ k ∧ k ≤ text.length ∧ r.2 = text.drop k ∧ '\n' ∉ text.take k := by
  have hle : (takeLeadingIntegerLiteral text).length ≤ text.length :=
    takeLeadingIntegerLiteral_length_le text
  simp only [lexIntegerLiteral] at h
  split at h
  · exact absurd h (by simp)
  · rename_i he
    have hne : takeLeadingIntegerLiteral text ≠ [] := by
      intro hx
      exact he (by simp [hx])
    have hlen : 1 ≤ (takeLeadingIntegerLiteral text).length :=
      Nat.one_le_iff_ne_zero.mpr (by simpa using hne)
    refine ⟨(takeLeadingIntegerLiteral text).length, hlen, hle, ?_, ?_⟩
    · have h2 := congrArg (Option.map Prod.snd) h
      simp only [apply_ite (Option.map Prod.snd), Option.map_some', ite_self] at h2
      exact (Option.some.inj h2).symm
    · rw [takeLeadingIntegerLiteral_take]
      exact no_nl_takeLeadingIntegerLiteral text

/-- `LexError` always consumes at least one character of a non-empty
remainder. -/
theorem lexError_consumes (st : LexState) (text : List Char) (hne : text ≠ []) :
    ∃ k, 1 ≤ k ∧ k ≤ text.length ∧ (lexError st text).2 = text.drop k := by
  have hp : (2 : Nat) ^ 31 - 1 = 2147483647 := by norm_num
  by_cases he : (text.takeWhile errScanChar).isEmpty = true
  · refine ⟨((text.take 1).take (2 ^ 31 - 1)).length, ?_, ?_, ?_⟩
    · match text, hne with
      | c :: rest, _ => simp [List.length_take, hp]
    · simp only [List.length_take]
      have := Nat.min_le_left 1 text.length
      omega
    · simp [lexError, he]
  · have hne2 : text.takeWhile errScanChar ≠ [] := by simpa [List.isEmpty_iff] using he
    refine ⟨((text.takeWhile errScanChar).take (2 ^ 31 - 1)).length, ?_, ?_, ?_⟩
    · have h1 : 1 ≤ (text.takeWhile errScanChar).length :=
        Nat.one_le_iff_ne_zero.mpr (by simpa using hne2)
      simp only [List.length_take, hp]
      omega
    · simp only [List.length_take]
      have := takeWhile_length_le errScanChar text
      omega
    · simp [lexError, he]

/-- `LexError` under the drive loop's entry condition (a non-whitespace
head): the consumed characters contain no newline. -/
theorem lexError_consumes_nl (st : LexState) (text : List Char) (hnws : NonWsHead text) :
    ∃ k, 1 ≤ k ∧ k ≤ text.length ∧ (lexError st text).2 = text.drop k ∧
      '\n' ∉ text.take k := by
  obtain ⟨c, t, hct, hc1, -, -⟩ := hnws
  have hp : (2 : Nat) ^ 31 - 1 = 2147483647 := by norm_num
  by_cases he : (text.takeWhile errScanChar).isEmpty = true
  · refine ⟨((text.take 1).take (2 ^ 31 - 1)).length, ?_, ?_, ?_, ?_⟩
    · rw [hct]; simp [List.length_take, hp]
    · simp only [List.length_take]
      have := Nat.min_le_left 1 text.length
      omega
    · simp [lexError, he]
    · rw [take_prefix_trans (List.take_prefix 1 text)]
      intro hmem
      have h1 : '\n' ∈ text.take 1 := List.mem_of_mem_take hmem
      rw [hct] at h1
      simp only [List.take_succ_cons, List.take_zero, List.mem_singleton] at h1
      exact hc1 h1.symm
  · have hne2 : text.takeWhile errScanChar ≠ [] := by simpa [List.isEmpty_iff] using he
    refine ⟨((text.takeWhile errScanChar).take (2 ^ 31 - 1)).length, ?_, ?_, ?_, ?_⟩
    · have h1 : 1 ≤ (text.takeWhile errScanChar).length :=
        Nat.one_le_iff_ne_zero.mpr (by simpa using hne2)
      simp only [List.length_take, hp]
      omega
    · simp only [List.length_take]
      have := takeWhile_length_le errScanChar text
      omega
    · simp [lexError, he]
    · rw [take_prefix_trans (List.takeWhile_prefix errScanChar)]
      intro hmem
      have h1 : '\n' ∈ text.takeWhile errScanChar := List.mem_of_mem_take hmem
      exact not_mem_takeWhile_of_pred (by decide) text h1

/-- The strategy dispatch, entered on a non-whitespace head, consumes at
least one newline-free character span. -/
theorem lexOneToken_consumes_nl (st : LexState) (text : List Char) (hnws : NonWsHead text) :
    ∃ k, 1 ≤ k ∧ k ≤ text.length ∧ (lexOneToken st text).2 = text.drop k ∧
      '\n' ∉ text.take k := by
  unfold lexOneToken
  cases h1 : lexSymbolToken st text with
  | some r => exact lexSymbolToken_consumes h1
  | none =>
    cases h2 : lexKeywordOrIdentifier st text with
    | some r => exact lexKeywordOrIdentifier_consumes h2
    | none =>
      cases h3 : lexIntegerLiteral st text with
      | some r => exact lexIntegerLiteral_consumes h3
      | none => exact lexError_consumes_nl st text hnws

/-- The strategy dispatch consumes at least one character of any
non-empty remainder. -/
theorem lexOneToken_consumes (st : LexState) (text : List Char) (hne : text ≠ []) :
    ∃ k, 1 ≤ k ∧ k ≤ text.length ∧ (lexOneToken st text).2 = text.drop k := by
  unfold lexOneToken
  cases h1 : lexSymbolToken st text with
  | some r => exact (lexSymbolToken_consumes h1).imp (fun k hk => ⟨hk.1, hk.2.1, hk.2.2.1⟩)
  | none =>
    cases h2 : lexKeywordOrIdentifier st text with
    | some r =>
      exact (lexKeywordOrIdentifier_consumes h2).imp (fun k hk => ⟨hk.1, hk.2.1, hk.2.2.1⟩)
    | none =>
      cases h3 : lexIntegerLiteral st text with
      | some r =>
        exact (lexIntegerLiteral_consumes h3).imp (fun k hk => ⟨hk.1, hk.2.1, hk.2.2.1⟩)
      | none => exact lexError_consumes st text hne

/-- The drive loop computes the same result under any adequate fuel. -/
theorem lexLoopF_fuel : ∀ (f1 f2 : Nat) (st : LexState) (text : List Char),
    text.length < f1 → text.length < f2 →
    lexLoopF f1 st text = lexLoopF f2 st text := by
  intro f1
  induction f1 with
  | zero => intro f2 st text h; omega
  | succ a ih =>
    intro f2 st text h1 h2
    match f2, h2 with
    | b + 1, h2 =>
      simp only [lexLoopF]
      obtain ⟨⟨k, hk⟩, htrue, -⟩ :=
        skipWhitespaceF_shape (text.length + 1) st text (Nat.lt_succ_self _)
      by_cases hw : (skipWhitespaceF (text.length + 1) st text).1 = true
      · simp only [hw, if_pos]
        obtain ⟨c, t, hct, -, -, -⟩ := htrue hw
        have hwne : (skipWhitespaceF (text.length + 1) st text).2.2 ≠ [] := by
          rw [hct]; simp
        obtain ⟨m, hm1, hm2, hm3⟩ := lexOneToken_consumes _ _ hwne
        have hwlen : (skipWhitespaceF (text.length + 1) st text).2.2.length ≤ text.length := by
          rw [hk, List.length_drop]; omega
        have hlt : (lexOneToken (skipWhitespaceF (text.length + 1) st text).2.1
            (skipWhitespaceF (text.length + 1) st text).2.2).2.length < text.length := by
          rw [hm3, List.length_drop]
          have : 1 ≤ (skipWhitespaceF (text.length + 1) st text).2.2.length := by
            rw [hct]; simp
          omega
        exact ih b _ _ (by omega) (by omega)
      · simp only [Bool.not_eq_true] at hw
        simp only [hw, Bool.false_eq_true, if_neg, not_false_iff]

/-- One iteration of the token dispatch preserves the invariant, leaves
the line table untouched, and consumes no newline. -/
theorem lexOneToken_inv {st : LexState} {text : List Char}
    (inv : Inv st text) (hnws : NonWsHead text) :
    Inv (lexOneToken st text).1 (lexOneToken st text).2 ∧
    (lexOneToken st text).1.buffer.line_infos.length = st.buffer.line_infos.length ∧
    nlFollowed (lexOneToken st text).2 = nlFollowed text := by
  have hnl : nlFollowed (lexOneToken st text).2 = nlFollowed text := by
    obtain ⟨k, -, -, hdr, hnin⟩ := lexOneToken_consumes_nl st text hnws
    rw [hdr]
    exact nlFollowed_drop _ _ hnin
  have hmain : Inv (lexOneToken st text).1 (lexOneToken st text).2 ∧
      (lexOneToken st text).1.buffer.line_infos.length = st.buffer.line_infos.length := by
    unfold lexOneToken
    cases h1 : lexSymbolToken st text with
    | some r => exact lexSymbolToken_inv inv hnws h1
    | none =>
      cases h2 : lexKeywordOrIdentifier st text with
      | some r => exact lexKeywordOrIdentifier_inv inv hnws h2
      | none =>
        cases h3 : lexIntegerLiteral st text with
        | some r => exact lexIntegerLiteral_inv inv hnws h3
        | none => exact lexError_inv inv hnws
  exact ⟨hmain.1, hmain.2, hnl⟩

/-- The drive loop of `Lex` (with adequate fuel): at exit the state's
buffer is internally consistent (`InvCore` against the at-most-one
unconsumed trailing newline), the indent bookkeeping is complete, the
current (= last) line's length is final, and the line table has grown by
exactly the number of input newlines that had a successor character. -/
theorem lexLoopF_inv : ∀ (fuel : Nat) (st : LexState) (text : List Char),
    Inv st text → text.length < fuel →
    (∃ tF, (tF = [] ∨ tF = ['\n']) ∧ InvCore (lexLoopF fuel st text) tF) ∧
    IndentUnset (lexLoopF fuel st text) ∧
    IndentOK (lexLoopF fuel st text) ∧
    (getLine (lexLoopF fuel st text) (lexLoopF fuel st text).current_line).length =
      (lexLoopF fuel st text).current_column ∧
    (lexLoopF fuel st text).buffer.line_infos.length =
      st.buffer.line_infos.length + nlFollowed text := by
  intro fuel
  induction fuel with
  | zero => intro st text inv h; omega
  | succ fuel ih =>
    intro st text inv h
    simp only [lexLoopF]
    obtain ⟨⟨k, hk⟩, htrue, hfalse⟩ :=
      skipWhitespaceF_shape (text.length + 1) st text (Nat.lt_succ_self _)
    obtain ⟨wcount, wtrue, wfalse⟩ :=
      skipWhitespaceF_inv (text.length + 1) st text inv (Nat.lt_succ_self _)
    by_cases hw : (skipWhitespaceF (text.length + 1) st text).1 = true
    · simp only [hw, if_pos]
      have hinvW := wtrue hw
      have hnwsW := htrue hw
      obtain ⟨hinvT, hlinesT, hnlT⟩ := lexOneToken_inv hinvW hnwsW
      obtain ⟨c, t, hct, -, -, -⟩ := hnwsW
      have hwne : (skipWhitespaceF (text.length + 1) st text).2.2 ≠ [] := by
        rw [hct]; simp
      obtain ⟨m, hm1, hm2, hm3⟩ := lexOneToken_consumes _ _ hwne
      have hwlen : (skipWhitespaceF (text.length + 1) st text).2.2.length ≤ text.length := by
        rw [hk, List.length_drop]; omega
      have hlt : (lexOneToken (skipWhitespaceF (text.length + 1) st text).2.1
          (skipWhitespaceF (text.length + 1) st text).2.2).2.length < fuel := by
        rw [hm3, List.length_drop]
        have h1 : 1 ≤ (skipWhitespaceF (text.length + 1) st text).2.2.length := by
          rw [hct]; simp
        omega
      obtain ⟨i1, i2, i3, i4, i5⟩ := ih _ _ hinvT hlt
      refine ⟨i1, i2, i3, i4, ?_⟩
      rw [i5, hlinesT, hnlT]
      exact wcount
    · simp only [Bool.not_eq_true] at hw
      simp only [hw, Bool.false_eq_true, if_neg, not_false_iff]
      obtain ⟨htF, hiu, hio, hlenfact⟩ := wfalse hw
      refine ⟨htF, hiu, hio, hlenfact, ?_⟩
      have htx : (skipWhitespaceF (text.length + 1) st text).2.2 = [] := hfalse hw
      rw [htx, show nlFollowed [] = 0 from rfl] at wcount
      omega

/-- The state built by the `Lexer` constructor satisfies the invariant
against the whole source. -/
theorem initState_inv (source : List Char) : Inv (initState source) source := by
  refine ⟨⟨?_, ?_, ?_, ?_, ?_, ?_, ?_, ?_, ?_, ?_, ?_, ?_, ?_, ?_⟩, ?_, ?_⟩
  · simp [initState]
  · rfl
  · rfl
  · exact Nat.zero_add _
  · intro i hi
    simp [initState] at hi
  · rfl
  · intro i hi
    simp [initState] at hi
  · intro p hp
    simp [initState] at hp
  · intro p hp
    simp [initState] at hp
  · exact List.nodup_nil
  · intro g hg
    simp [initState] at hg
  · intro i hi
    simp [initState] at hi
  · intro i hi
    simp [initState] at hi
  · intro i hi
    simp [initState] at hi
  · intro _
    rfl
  · intro ℓ hl
    simp [initState] at hl
    refine Or.inl ?_
    have h0 : ℓ = 0 := by omega
    subst h0
    rfl

/-- The finished state of `Lex`: the buffer is internally consistent,
the indent bookkeeping is complete, the last line's length is final, the
line count is one more than the count of input newlines with a successor
character, and the bracket stack is fully drained. -/
theorem Lex_facts (source : List Char) :
    (∃ tF, (tF = [] ∨ tF = ['\n']) ∧ InvCore (Lex source) tF) ∧
    IndentUnset (Lex source) ∧
    IndentOK (Lex source) ∧
    (getLine (Lex source) (Lex source).current_line).length =
      (Lex source).current_column ∧
    (Lex source).buffer.line_infos.length = 1 + nlFollowed source ∧
    (Lex source).open_groups = [] := by
  obtain ⟨⟨tF, htF, coreL⟩, hiuL, hioL, hlenL, hcountL⟩ :=
    lexLoopF_inv (source.length + 1) (initState source) source
      (initState_inv source) (Nat.lt_succ_self _)
  have hrun : closeGroupsLoop .Error
      (lexLoopF (source.length + 1) (initState source) source).open_groups.length
      (lexLoopF (source.length + 1) (initState source) source) = Lex source := by
    show _ = closeInvalidOpenGroups _ _
    unfold closeInvalidOpenGroups
    rw [if_neg (fun hx => hx.2 rfl)]
  obtain ⟨coreF, hiuF, hiaF, hokF, hlinesF, hclF, hccF, hsiF, hsrcF, hpostF⟩ :=
    closeGroupsLoop_inv .Error _ _ tF _ coreL hiuL (indentAlmost_of_ok hioL)
      (le_refl _) hrun
  have hgF : (Lex source).open_groups = [] := by
    rcases hpostF with hnil | ⟨top, restG, hg, hkc⟩
    · exact hnil
    · exfalso
      have htopmem : top ∈ (Lex source).open_groups := by
        rw [hg]
        exact List.mem_cons_self _ _
      obtain ⟨-, htopo, -⟩ := coreF.groups_ok top htopmem
      obtain ⟨-, -, -, -, hne, -⟩ := closingSymbol_props _ htopo
      exact hne hkc.symm
  refine ⟨⟨tF, htF, coreF⟩, hiuF, hokF hioL, ?_, ?_, hgF⟩
  · have hthis := hlenL
    unfold getLine at hthis ⊢
    rw [hlinesF, hclF, hccF]
    exact hthis
  · show (Lex source).buffer.line_infos.length = 1 + nlFollowed source
    rw [hlinesF, hcountL]
    rfl

/-- Claim C5: for every finite input, Lex terminates: every iteration of
the drive loop that is entered with non-whitespace remaining consumes at
least one byte of the source text (so the fuelled loop is
fuel-independent above the input length and reaches the fixed result
that `Lex` returns), and the fallback error scan forcibly consumes
exactly one character whenever its maximal unrecognizable run is
empty. -/
theorem claim5_termination :
    (∀ (st : LexState) (text : List Char), text ≠ [] →
      ∃ k, 1 ≤ k ∧ k ≤ text.length ∧ (lexOneToken st text).2 = text.drop k) ∧
    (∀ (st : LexState) (text : List Char), text ≠ [] →
      text.takeWhile errScanChar = [] → (lexError st text).2 = text.drop 1) ∧
    (∀ (fuel : Nat) (source : List Char), source.length < fuel →
      closeInvalidOpenGroups (lexLoopF fuel (initState source) source) .Error = Lex source) := by
  refine ⟨lexOneToken_consumes, ?_, ?_⟩
  · intro st text hne hrun
    match text, hne with
    | c :: rest, _ =>
      simp [lexError, hrun, List.length_take]
  · intro fuel source h
    unfold Lex
    rw [lexLoopF_fuel fuel (source.length + 1) _ _ h (Nat.lt_succ_self _)]

/-- Witness for `claim5_termination`: progress on the one-character
input made of an unrecognizable character, the forced one-character
consumption on a text whose head begins a symbol spelling, and fuel
irrelevance on a concrete input. -/
theorem claim5_termination_witness :
    (∃ k, 1 ≤ k ∧ k ≤ 1 ∧ (lexOneToken (initState ['$']) ['$']).2 = ['$'].drop k) ∧
    (lexError (initState ['(']) ['(']).2 = ['('].drop 1 ∧
    closeInvalidOpenGroups (lexLoopF 9 (initState "(]".toList) "(]".toList) .Error =
      Lex "(]".toList :=
  ⟨claim5_termination.1 _ ['$'] (by decide),
   claim5_termination.2.1 _ ['('] (by decide) (by decide),
   claim5_termination.2.2 9 _ (by decide)⟩

/-- Claim C2 counterexample: lexing the input produces exactly three
tokens, not four as the claim states. -/
theorem claim2_counterexample :
    (Lex "(]".toList).buffer.token_infos.length = 3 ∧
    ¬ (Lex "(]".toList).buffer.token_infos.length = 4 := by decide

/-- Claim C2 (amended): lexing `"(]"` emits exactly two diagnostics, in
order MismatchedClosing then UnmatchedClosing, and produces three tokens
total: an opening `(`, a synthetic `)` marked as recovery and
cross-linked to the `(`, and the `]` rewritten in place to an Error token
(of error length 1, whose text is the original `]`). -/
theorem claim2_amended_three_tokens :
    (Lex "(]".toList).diags = [.MismatchedClosing, .UnmatchedClosing] ∧
    kindsOf (Lex "(]".toList) = [.OpenParen, .CloseParen, .Error] ∧
    IsRecoveryToken (Lex "(]".toList) 0 = false ∧
    IsRecoveryToken (Lex "(]".toList) 1 = true ∧
    IsRecoveryToken (Lex "(]".toList) 2 = false ∧
    GetMatchedClosingToken (Lex "(]".toList) 0 = some 1 ∧
    GetMatchedOpeningToken (Lex "(]".toList) 1 = some 0 ∧
    (getTok (Lex "(]".toList) 2).error_length = 1 ∧
    GetTokenText (Lex "(]".toList) 2 = "]".toList ∧
    (Lex "(]".toList).open_groups = [] := by decide

/-! ### Claim C3 -/

/-- Claim C3: `"1_000"` lexes as one IntegerLiteral of value 1000 with
no diagnostics; `"1_00"` lexes as one IntegerLiteral of value 100 with
exactly one IrregularDigitSeparators diagnostic (still accepted, not an
Error token). -/
theorem claim3_digit_separators :
    kindsOf (Lex "1_000".toList) = [.IntegerLiteral] ∧
    GetIntegerLiteral (Lex "1_000".toList) 0 = 1000 ∧
    (Lex "1_000".toList).diags = [] ∧
    (Lex "1_000".toList).buffer.has_errors = false ∧
    kindsOf (Lex "1_00".toList) = [.IntegerLiteral] ∧
    GetIntegerLiteral (Lex "1_00".toList) 0 = 100 ∧
    (Lex "1_00".toList).diags = [Diag.IrregularDigitSeparators 10] := by decide

/-! ### Claim C4 -/

/-- Claim C4 counterexample: with the line's indent already set by the
token `x`, the text `//c` is not skipped as whitespace: it is lexed as
ordinary tokens (an Error token spanning the two markers, then the
identifier `c`).  Moreover a three-marker prefix with no following
space still lexes as a DocComment. -/
theorem claim4_counterexample :
    kindsOf (Lex "x //c".toList) = [.Identifier, .Error, .Identifier] ∧
    ¬ kindsOf (Lex "x //c".toList) = [.Identifier] ∧
    GetTokenText (Lex "x //c".toList) 1 = "//".toList ∧
    kindsOf (Lex "///x\ny".toList) = [.DocComment, .Identifier] := by decide

/-- Claim C4 (amended): a two-marker comment is recognized only while no
token has yet set the current line's indent, in which case it extends to
end of line and is skipped as whitespace — except that a three-marker
prefix (with or without a following space) is lexed as one DocComment
token spanning the remainder of the line.  Once the indent flag is set,
marker sequences are not treated as comments at all: `SkipWhitespace`
stops in front of them and they are lexed as ordinary tokens. -/
theorem claim4_amended_comments :
    (∀ (fuel : Nat) (st : LexState) (t : List Char), st.set_indent = true →
        skipWhitespaceF (fuel + 1) st ('/' :: '/' :: t) = (true, st, '/' :: '/' :: t)) ∧
    kindsOf (Lex "// c x\ny".toList) = [.Identifier] ∧
    kindsOf (Lex "/// a\nx".toList) = [.DocComment, .Identifier] ∧
    GetTokenText (Lex "/// a\nx".toList) 0 = "/// a".toList ∧
    kindsOf (Lex "///x\ny".toList) = [.DocComment, .Identifier] ∧
    GetTokenText (Lex "///x\ny".toList) 0 = "///x".toList ∧
    kindsOf (Lex "x //c".toList) = [.Identifier, .Error, .Identifier] ∧
    kindsOf (Lex "x ///c".toList) = [.Identifier, .Error, .Identifier] := by
  refine ⟨fun fuel st t h => ?_, by decide⟩
  simp [skipWhitespaceF, isSlashSlash, h]

/-- Witness for the hypothesis of `claim4_amended_comments`: the general
comment-after-indent fact applied at a concrete state and text. -/
theorem claim4_amended_comments_witness :
    skipWhitespaceF 1 { initState ['/', '/'] with set_indent := true } ['/', '/'] =
      (true, { initState ['/', '/'] with set_indent := true }, ['/', '/']) :=
  claim4_amended_comments.1 0 { initState ['/', '/'] with set_indent := true } [] rfl

/-! ### Claim C6 counterexample -/

/-- Claim C6 counterexample: the indent field of a line record is 0, not
−1, from the moment the line is created (on empty input the single line
record carries indent 0 with no token ever lexed), and it is not set by
the first token on the line when that token comes from the fallback
error scan: on `"$ x"` the first token (an Error at column 0) leaves the
indent unset and the identifier at column 2 then sets it to 2. -/
theorem claim6_counterexample :
    ((Lex ([] : List Char)).buffer.line_infos.getD 0 dLine).indent = 0 ∧
    (Lex ([] : List Char)).buffer.token_infos = [] ∧
    ((0 : Int) = -1 → False) ∧
    GetKind (Lex "$ x".toList) 0 = .Error ∧
    (getTok (Lex "$ x".toList) 0).token_line = 0 ∧
    (getTok (Lex "$ x".toList) 0).column = 0 ∧
    ((Lex "$ x".toList).buffer.line_infos.getD 0 dLine).indent = 2 := by decide

/-! ### Claim C9 -/

/-- Claim C9 counterexample: for the input `"x\n/// y"` the
reconstruction replaces the newline separator by a single space, placing
the doc comment after a token on the same line; re-lexing it then
produces a different kind sequence. -/
theorem claim9_counterexample :
    reconstruct (Lex "x\n/// y".toList) = "x /// y".toList ∧
    kindsOf (Lex "x\n/// y".toList) = [.Identifier, .DocComment] ∧
    kindsOf (Lex (reconstruct (Lex "x\n/// y".toList))) =
      [.Identifier, .Error, .Identifier] ∧
    ¬ kindsOf (Lex (reconstruct (Lex "x\n/// y".toList))) =
      kindsOf (Lex "x\n/// y".toList) := by decide

/-- Claim C9 (amended): re-lexing the reconstructed text does not in
general preserve the kind sequence.  It fails in at least two ways: a
DocComment token is moved onto a line whose indent is already set, so
`"x\n/// y"` (lexed `[Identifier, DocComment]`) re-lexes as
`[Identifier, Error, Identifier]`; and two Error tokens whose separator
becomes a single space merge into one, because the fallback error
scan's character class also consumes the space, so `"$\n%"` (lexed
`[Error, Error]`) reconstructs to `"$ %"` and re-lexes as `[Error]`.
The kind sequence is preserved on the verified sample of inputs below,
which exhibit neither failure mode: identifiers, keywords,
decimal/hex/binary literals, irregular separators, bracket recovery
(both mid-input mismatch and end-of-input forced closure), rewritten
unmatched closers, over-consumed invalid literals, a single fallback
error span absorbing a space, ordinary comments, and multi-line
inputs. -/
theorem claim9_amended_roundtrip :
    kindsOf (Lex "x\n/// y".toList) = [.Identifier, .DocComment] ∧
    kindsOf (Lex (reconstruct (Lex "x\n/// y".toList))) =
      [.Identifier, .Error, .Identifier] ∧
    ¬ roundTripOK "x\n/// y".toList ∧
    kindsOf (Lex "$\n%".toList) = [.Error, .Error] ∧
    reconstruct (Lex "$\n%".toList) = "$ %".toList ∧
    kindsOf (Lex (reconstruct (Lex "$\n%".toList))) = [.Error] ∧
    ¬ roundTripOK "$\n%".toList ∧
    roundTripOK "foo bar foo".toList ∧
    roundTripOK "fn var foo(x)".toList ∧
    roundTripOK "1_000".toList ∧
    roundTripOK "1_00".toList ∧
    roundTripOK "0x1F 0b101".toList ∧
    roundTripOK "(]".toList ∧
    roundTripOK "(".toList ∧
    roundTripOK "{[(]}".toList ∧
    roundTripOK "0z5".toList ∧
    roundTripOK "1abc 2_3".toList ∧
    roundTripOK "$ x".toList ∧
    roundTripOK "x //c".toList ∧
    roundTripOK "//c\nx".toList ∧
    roundTripOK "x\n y".toList := by
  unfold roundTripOK
  decide

/-! ### Claim C1 -/

/-- Claim C1: when `Lex` returns, the bracket-group stack is empty,
every token of opening-bracket kind is cross-linked to a matching
closing token (possibly a synthetic recovery token), and every token of
closing-bracket kind is cross-linked to a matching opening token — the
closing symbols that could not be matched were rewritten in place to the
`Error` kind and so are no longer closing-bracket tokens. -/
theorem claim1_brackets (source : List Char) :
    (Lex source).open_groups = [] ∧
    (∀ i, i < (Lex source).buffer.token_infos.length →
      (getTok (Lex source) i).kind.isOpeningSymbol = true →
      LinkedOpen (Lex source) i) ∧
    (∀ i, i < (Lex source).buffer.token_infos.length →
      (getTok (Lex source) i).kind.isClosingSymbol = true →
      LinkedClose (Lex source) i) := by
  obtain ⟨⟨tF, htF, coreF⟩, -, -, -, -, hgF⟩ := Lex_facts source
  refine ⟨hgF, ?_, ?_⟩
  · intro i hi hop
    exact coreF.open_linked i hi hop (by rw [hgF]; simp)
  · intro i hi hcl
    exact coreF.close_linked i hi hcl

/-- Witness for `claim1_brackets`: on the input `"(]"` the opening `(`
is linked (to the synthetic recovery `)`), and that recovery closer is
linked back. -/
theorem claim1_brackets_witness :
    0 < (Lex "(]".toList).buffer.token_infos.length ∧
    (getTok (Lex "(]".toList) 0).kind.isOpeningSymbol = true ∧
    LinkedOpen (Lex "(]".toList) 0 ∧
    1 < (Lex "(]".toList).buffer.token_infos.length ∧
    (getTok (Lex "(]".toList) 1).kind.isClosingSymbol = true ∧
    LinkedClose (Lex "(]".toList) 1 :=
  ⟨by decide, by decide,
   (claim1_brackets "(]".toList).2.1 0 (by decide) (by decide),
   by decide, by decide,
   (claim1_brackets "(]".toList).2.2 1 (by decide) (by decide)⟩

/-! ### Claim C6 (amended) -/

/-- Claim C6 (amended): every line record's indent column field is 0
(not −1) from the moment the line is created, and at any point it is
either still that initial 0 or equal to the column of a token lexed on
that line; it is set by the first indent-setting action on the line (a
symbol, keyword, identifier, integer-literal or doc-comment lexing
step), while fallback error tokens and synthetic recovery tokens never
set it.  Concretely: on `""` the single line keeps indent 0 with no
token lexed; on `" x"` the identifier at column 1 sets the indent to 1;
on `"$ x"` the fallback error token at column 0 leaves the indent unset
and the identifier at column 2 then sets it to 2. -/
theorem claim6_amended_indent :
    (∀ (source : List Char) (ℓ : Nat), ℓ < (Lex source).buffer.line_infos.length →
      (getLine (Lex source) ℓ).indent = 0 ∨
      ∃ i, i < (Lex source).buffer.token_infos.length ∧
        (getTok (Lex source) i).token_line = ℓ ∧
        ((getTok (Lex source) i).column : Int) = (getLine (Lex source) ℓ).indent) ∧
    ((Lex ([] : List Char)).buffer.line_infos.getD 0 dLine).indent = 0 ∧
    (Lex ([] : List Char)).buffer.token_infos = [] ∧
    ((Lex " x".toList).buffer.line_infos.getD 0 dLine).indent = 1 ∧
    GetKind (Lex "$ x".toList) 0 = .Error ∧
    (getTok (Lex "$ x".toList) 0).column = 0 ∧
    ((Lex "$ x".toList).buffer.line_infos.getD 0 dLine).indent = 2 := by
  refine ⟨?_, by decide⟩
  intro source ℓ hl
  obtain ⟨-, -, hio, -⟩ := Lex_facts source
  exact hio ℓ hl

/-- Witness for `claim6_amended_indent`: the general indent alternative
applied to the line of `" x"`. -/
theorem claim6_amended_indent_witness :
    0 < (Lex " x".toList).buffer.line_infos.length ∧
    ((getLine (Lex " x".toList) 0).indent = 0 ∨
      ∃ i, i < (Lex " x".toList).buffer.token_infos.length ∧
        (getTok (Lex " x".toList) i).token_line = 0 ∧
        ((getTok (Lex " x".toList) i).column : Int) = (getLine (Lex " x".toList) 0).indent) :=
  ⟨by decide, claim6_amended_indent.1 " x".toList 0 (by decide)⟩

/-! ### Claim C7 -/

/-- Claim C7: for every token of kind Identifier, IntegerLiteral, Error
or DocComment in a finished buffer, `GetTokenText` returns exactly the
source characters the token was lexed from (recorded in the ghost
`spans` field at the moment the token was created), so original
spelling, prefix, separators and case are preserved. -/
theorem claim7_token_text (source : List Char) (i : Nat)
    (hi : i < (Lex source).buffer.token_infos.length)
    (hk : GetKind (Lex source) i = .Identifier ∨
      GetKind (Lex source) i = .IntegerLiteral ∨
      GetKind (Lex source) i = .Error ∨
      GetKind (Lex source) i = .DocComment) :
    GetTokenText (Lex source) i = (Lex source).spans.getD i [] := by
  obtain ⟨⟨tF, htF, coreF⟩, -, -, hlenF, -, -⟩ := Lex_facts source
  obtain ⟨h1, h2, h3, h4⟩ := coreF.spans_ok i hi
  rcases hk with hk | hk | hk | hk
  · obtain ⟨hb, hg, -⟩ := h1 hk
    have hkr : (getTok (Lex source) i).kind = .Identifier := hk
    simp only [GetTokenText, hkr]
    simpa [TokenKind.fixedSpelling] using hg
  · have hg := h2 hk
    unfold tokStart at hg
    have hkr : (getTok (Lex source) i).kind = .IntegerLiteral := hk
    simp only [GetTokenText, hkr]
    simpa [TokenKind.fixedSpelling] using hg
  · have hg := h3 hk
    unfold tokStart at hg
    have hkr : (getTok (Lex source) i).kind = .Error := hk
    simp only [GetTokenText, hkr]
    simpa [TokenKind.fixedSpelling] using hg
  · have hg := h4 hk
    unfold tokStart at hg
    have hlineEnd : lineEnd (Lex source) (getTok (Lex source) i).token_line =
        (getLine (Lex source) (getTok (Lex source) i).token_line).start +
        (getLine (Lex source) (getTok (Lex source) i).token_line).length := by
      unfold lineEnd
      by_cases hc : (getTok (Lex source) i).token_line = (Lex source).current_line
      · rw [if_pos hc, hc, hlenF]
      · rw [if_neg hc]
    rw [hlineEnd] at hg
    have hkr : (getTok (Lex source) i).kind = .DocComment := hk
    simp only [GetTokenText, hkr]
    simpa [TokenKind.fixedSpelling] using hg

/-- Witness for `claim7_token_text`: the identifier of `"foo"` prints as
the characters it was lexed from. -/
theorem claim7_token_text_witness :
    0 < (Lex "foo".toList).buffer.token_infos.length ∧
    GetKind (Lex "foo".toList) 0 = .Identifier ∧
    GetTokenText (Lex "foo".toList) 0 = (Lex "foo".toList).spans.getD 0 [] :=
  ⟨by decide, by decide,
   claim7_token_text "foo".toList 0 (by decide) (Or.inl (by decide))⟩

/-! ### Claim C8 -/

/-- Claim C8: within one lexing run, identifier interning is a pure
function of spelling: two Identifier tokens receive the same handle if
and only if the texts they were lexed from are equal; concretely
`"foo bar foo"` yields identifier handles `[A, B, A]` with `A ≠ B`. -/
theorem claim8_interning :
    (∀ (source : List Char) (i j : Nat),
      i < (Lex source).buffer.token_infos.length →
      j < (Lex source).buffer.token_infos.length →
      GetKind (Lex source) i = .Identifier →
      GetKind (Lex source) j = .Identifier →
      (GetIdentifier (Lex source) i = GetIdentifier (Lex source) j ↔
        (Lex source).spans.getD i [] = (Lex source).spans.getD j [])) ∧
    kindsOf (Lex "foo bar foo".toList) = [.Identifier, .Identifier, .Identifier] ∧
    GetIdentifier (Lex "foo bar foo".toList) 0 =
      GetIdentifier (Lex "foo bar foo".toList) 2 ∧
    GetIdentifier (Lex "foo bar foo".toList) 0 ≠
      GetIdentifier (Lex "foo bar foo".toList) 1 := by
  refine ⟨?_, by decide⟩
  intro source i j hi hj hki hkj
  obtain ⟨⟨tF, htF, coreF⟩, -⟩ := Lex_facts source
  obtain ⟨hsi, -, -, -⟩ := coreF.spans_ok i hi
  obtain ⟨hsj, -, -, -⟩ := coreF.spans_ok j hj
  obtain ⟨hbi, hgi, ki, hmi⟩ := hsi hki
  obtain ⟨hbj, hgj, kj, hmj⟩ := hsj hkj
  constructor
  · intro heq
    rw [← hgi, ← hgj]
    show (Lex source).buffer.identifier_infos.getD (getTok (Lex source) i).id [] =
      (Lex source).buffer.identifier_infos.getD (getTok (Lex source) j).id []
    rw [show (getTok (Lex source) i).id = (getTok (Lex source) j).id from heq]
  · intro heq
    have hki2 : ki = (Lex source).spans.getD i [] := by
      rw [← hgi, (coreF.map_ok _ hmi).2]
    have hkj2 : kj = (Lex source).spans.getD j [] := by
      rw [← hgj, (coreF.map_ok _ hmj).2]
    have hkk : ki = kj := by rw [hki2, hkj2, heq]
    exact coreF.map_inj _ hmi _ hmj hkk

/-- Witness for `claim8_interning`: the interning criterion applied to
the first and third tokens of `"foo bar foo"`. -/
theorem claim8_interning_witness :
    0 < (Lex "foo bar foo".toList).buffer.token_infos.length ∧
    2 < (Lex "foo bar foo".toList).buffer.token_infos.length ∧
    GetKind (Lex "foo bar foo".toList) 0 = .Identifier ∧
    GetKind (Lex "foo bar foo".toList) 2 = .Identifier ∧
    (GetIdentifier (Lex "foo bar foo".toList) 0 =
        GetIdentifier (Lex "foo bar foo".toList) 2 ↔
      (Lex "foo bar foo".toList).spans.getD 0 [] =
        (Lex "foo bar foo".toList).spans.getD 2 []) :=
  ⟨by decide, by decide, by decide, by decide,
   claim8_interning.1 "foo bar foo".toList 0 2 (by decide) (by decide)
     (by decide) (by decide)⟩

/-! ### Claim C10 -/

/-- Claim C10: a newline that is the last character of the input only
records the current line's length and does not create an additional
line record; a line record is added only for a newline with at least one
following character, so the line count is one plus the number of such
newlines.  Concretely `"a\n"` has one line record and `"a\nb"` has
two. -/
theorem claim10_line_count :
    (∀ source : List Char,
      (Lex source).buffer.line_infos.length = 1 + nlFollowed source) ∧
    (Lex "a\n".toList).buffer.line_infos.length = 1 ∧
    (Lex "a\nb".toList).buffer.line_infos.length = 2 :=
  ⟨fun source => (Lex_facts source).2.2.2.2.1, by decide, by decide⟩

end CarbonLex
